import Mathlib

/-!
Verification development for the immich-analyze image-description pipeline.

The definitions below are a shallow embedding of the Rust sources:
`src/utils.rs` (asset resolver), `src/ollama.rs` and `src/llamacpp.rs`
(host availability router, backend dispatch loop and response parsing),
`src/file_processing.rs` (per-file pipeline) and `src/monitor.rs`
(file-stability wait, event debouncing and in-flight guard).

Machine integers are modelled as `Nat` (timestamps and durations are
never subtracted below zero in the source: `Instant::duration_since`
saturates, matching `Nat` truncated subtraction).  Fallible operations
return `Except`.  External effects (filesystem, HTTP, database) are
passed in as explicit inputs or recorded as explicit outputs.
-/

/-- `ImageAnalysisError` from `src/error.rs`: the error taxonomy of the
whole pipeline, field for field.  `u16`/`u64` payloads become `Nat`. -/
inductive ImageAnalysisError where
  | emptyFile (filename : String)
  | httpError (status : Nat) (filename : String) (response : String)
  | emptyResponse (filename : String)
  | jsonParsing (filename : String) (error : String)
  | fileWriteTimeout (timeout : Nat) (filename : String)
  | processingError (filename : String) (error : String)
  | alreadyProcessed (filename : String)
  | databaseError (error : String)
  | invalidUuid (filename : String)
  | invalidImmichStructure (error : String)
  | allHostsUnavailable
  | ollamaRequestTimeout
  | llamaCppRequestTimeout
deriving DecidableEq, Repr

/-- `Interface` from `src/args.rs`: which analysis backend the
configuration selects. -/
inductive Interface where
  | ollama
  | llamacpp
deriving DecidableEq, Repr

/-! ## Asset resolver (`src/utils.rs`, `extract_uuid_from_preview_filename`)

The Rust function searches the filename with two regexes:
`([0-9a-f]{8}-[0-9a-f]{4}-[0-9a-f]{4}-[0-9a-f]{4}-[0-9a-f]{12})-preview`
first, and the bare identifier pattern second.  Both patterns are of
fixed length with no alternation, so regex search is exactly a
leftmost scan trying the pattern at each successive position.
`Uuid::from_str` always succeeds on a captured group (the group is a
canonical hyphenated UUID), so the identifier is modelled as the
captured 36-character string itself. -/

/-- The character class `[0-9a-f]` of the source regexes. -/
def isLowerHexDigit (c : Char) : Bool :=
  (('0' ≤ c && c ≤ '9') || ('a' ≤ c && c ≤ 'f'))

/-- Match exactly `n` hex characters at the front of the list,
returning them and the remainder (one fixed-length regex group). -/
def takeHex : Nat → List Char → Option (List Char × List Char)
  | 0, cs => some ([], cs)
  | _ + 1, [] => none
  | n + 1, c :: cs =>
    if isLowerHexDigit c then
      match takeHex n cs with
      | some (u, r) => some (c :: u, r)
      | none => none
    else none

/-- Match a literal `-` at the front of the list. -/
def matchDash : List Char → Option (List Char)
  | c :: r => if c = '-' then some r else none
  | [] => none

/-- Match the full dashed 8-4-4-4-12 identifier pattern at the front of
the list, returning the 36 matched characters and the remainder. -/
def matchUuid (cs : List Char) : Option (List Char × List Char) := do
  let (g1, r) ← takeHex 8 cs
  let r ← matchDash r
  let (g2, r) ← takeHex 4 r
  let r ← matchDash r
  let (g3, r) ← takeHex 4 r
  let r ← matchDash r
  let (g4, r) ← takeHex 4 r
  let r ← matchDash r
  let (g5, r) ← takeHex 12 r
  pure (g1 ++ '-' :: (g2 ++ '-' :: (g3 ++ '-' :: (g4 ++ '-' :: g5))), r)

/-- Drop the literal sequence `pat` from the front of `cs`, if present. -/
def dropSeq : List Char → List Char → Option (List Char)
  | [], cs => some cs
  | _ :: _, [] => none
  | p :: ps, c :: cs => if c = p then dropSeq ps cs else none

/-- The `-preview` marker required by the first regex. -/
def previewChars : List Char := "-preview".data

/-- Leftmost search for the identifier pattern immediately followed by
`-preview` (the first regex of the source). -/
def findPreviewUuid : List Char → Option (List Char)
  | [] => none
  | c :: cs =>
    match matchUuid (c :: cs) with
    | some (u, rest) =>
      match dropSeq previewChars rest with
      | some _ => some u
      | none => findPreviewUuid cs
    | none => findPreviewUuid cs

/-- Leftmost search for the bare identifier pattern (the second,
fallback regex of the source). -/
def findUuid : List Char → Option (List Char)
  | [] => none
  | c :: cs =>
    match matchUuid (c :: cs) with
    | some (u, _) => some u
    | none => findUuid cs

/-- `extract_uuid_from_preview_filename` from `src/utils.rs`: try the
`-preview`-anchored pattern, then the bare pattern, else `InvalidUuid`. -/
def extract_uuid_from_preview_filename (filename : String) :
    Except ImageAnalysisError String :=
  match findPreviewUuid filename.data with
  | some u => .ok (String.mk u)
  | none =>
    match findUuid filename.data with
    | some u => .ok (String.mk u)
    | none => .error (.invalidUuid filename)

/-- Specification-side shape of a canonical dashed lowercase-hex
identifier: five hex groups of lengths 8, 4, 4, 4, 12 joined by `-`. -/
def IsUuid (u : List Char) : Prop :=
  ∃ g1 g2 g3 g4 g5 : List Char,
    u = g1 ++ '-' :: (g2 ++ '-' :: (g3 ++ '-' :: (g4 ++ '-' :: g5))) ∧
    g1.length = 8 ∧ g2.length = 4 ∧ g3.length = 4 ∧ g4.length = 4 ∧
    g5.length = 12 ∧
    (∀ c ∈ g1 ++ g2 ++ g3 ++ g4 ++ g5, isLowerHexDigit c = true)

/-- Substring search used by the monitor's filename filter
(`filename.contains("-preview.")`). -/
def startsWithSeq : List Char → List Char → Bool
  | [], _ => true
  | _ :: _, [] => false
  | p :: ps, c :: cs => c = p && startsWithSeq ps cs

/-- `haystack.contains(needle)` on character lists. -/
def containsSeq : List Char → List Char → Bool
  | [], pat => pat.isEmpty
  | c :: cs, pat => startsWithSeq pat (c :: cs) || containsSeq cs pat

/-- Decidable equality for `Except` results, used by concrete evaluations. -/
instance exceptDecEq {ε α : Type} [DecidableEq ε] [DecidableEq α] :
    DecidableEq (Except ε α) := fun a b =>
  match a, b with
  | .ok x, .ok y =>
    if h : x = y then .isTrue (by rw [h]) else .isFalse (by intro hc; cases hc; exact h rfl)
  | .error x, .error y =>
    if h : x = y then .isTrue (by rw [h]) else .isFalse (by intro hc; cases hc; exact h rfl)
  | .ok _, .error _ => .isFalse (by intro hc; cases hc)
  | .error _, .ok _ => .isFalse (by intro hc; cases hc)

/-! ## Host availability router (`src/ollama.rs` / `src/llamacpp.rs`)

`OllamaHostManager` and `LlamaCppHostManager` implement the identical
selection logic (the llama.cpp copy only adds an `api_key` field and
logging), so a single `HostManager` embeds both.  The
`Arc<Mutex<HashMap<String, Instant>>>` unavailability map becomes an
association list of `(host, markTime)` pairs; `Instant` timestamps
become `Nat` and every operation takes the current time `now`
explicitly. -/

structure HostManager where
  hosts : List String
  unavailable : List (String × Nat)
  unavailableDuration : Nat
deriving DecidableEq, Repr

/-- `OllamaHostManager::new` / `LlamaCppHostManager::new`: the
unavailability map starts empty. -/
def HostManager.new (hosts : List String) (unavailableDuration : Nat) : HostManager :=
  { hosts := hosts, unavailable := [], unavailableDuration := unavailableDuration }

/-- `HashMap::contains_key` on the association-list map. -/
def containsKey (m : List (String × Nat)) (h : String) : Bool :=
  m.any (fun p => p.1 == h)

/-- `HashMap::insert`: overwrite the entry if the key is present,
otherwise add it. -/
def insertAssoc (m : List (String × Nat)) (h : String) (t : Nat) : List (String × Nat) :=
  if containsKey m h then m.map (fun p => if p.1 == h then (h, t) else p)
  else m ++ [(h, t)]

/-- `iter().min_by_key(|(_, timestamp)| *timestamp)`: an entry with the
smallest timestamp (the first such, ties broken by list position; the
Rust `HashMap` iteration order is arbitrary, so any tie-break is a
faithful refinement). -/
def minEntry : List (String × Nat) → Option (String × Nat)
  | [] => none
  | p :: ps =>
    match minEntry ps with
    | none => some p
    | some q => if p.2 ≤ q.2 then some p else some q

/-- The `retain` cleanup at the top of `get_available_host`: drop every
record whose age `now - timestamp` has reached `unavailable_duration`. -/
def expireHosts (m : HostManager) (now : Nat) : HostManager :=
  { m with unavailable :=
      m.unavailable.filter (fun p => now - p.2 < m.unavailableDuration) }

/-- `get_available_host` from `src/ollama.rs` lines 40-57 (and the
identical `src/llamacpp.rs` lines 50-83): lazy expiry, then the first
pool host not in the map, then the oldest-marked host, and
`AllHostsUnavailable` only when both pool and map are empty.  Returns
the selected host together with the cleaned-up manager state. -/
def get_available_host (m : HostManager) (now : Nat) :
    Except ImageAnalysisError String × HostManager :=
  let m' := expireHosts m now
  match m'.hosts.find? (fun h => !containsKey m'.unavailable h) with
  | some h => (.ok h, m')
  | none =>
    match minEntry m'.unavailable with
    | some p => (.ok p.1, m')
    | none => (.error .allHostsUnavailable, m')

/-- `mark_host_unavailable`: unconditionally overwrite the host's
timestamp with `now`. -/
def mark_host_unavailable (m : HostManager) (h : String) (now : Nat) : HostManager :=
  { m with unavailable := insertAssoc m.unavailable h now }

/-- Specification-side predicate: `h` carries a not-yet-expired
unavailability mark at time `now`. -/
def HasUnexpiredMark (m : HostManager) (now : Nat) (h : String) : Prop :=
  ∃ t, (h, t) ∈ m.unavailable ∧ now - t < m.unavailableDuration

/-! ## Backend wire model (`src/ollama.rs` / `src/llamacpp.rs`)

An HTTP attempt's observable outcome is a `WireResult`: a deadline
expiry, a transport-level error, or a response carrying a status code
and a body.  A successfully read body is its raw text together with
its JSON parse (`none` when the text is not valid JSON); a failed body
read carries the error message.  JSON trees model `serde_json::Value`;
the JSON-string payload of `JsonParsing` errors produced by
`parse_error.to_string()` is claim-irrelevant and modelled by the
constant `"parse error"`. -/

inductive Json where
  | null
  | bool (b : Bool)
  | num (n : Int)
  | str (s : String)
  | arr (elems : List Json)
  | obj (fields : List (String × Json))

/-- Field lookup in a JSON object (`Value::get` on objects). -/
def jlookup : List (String × Json) → String → Option Json
  | [], _ => none
  | (k, v) :: fs, key => if k == key then some v else jlookup fs key

/-- `Value::get(key)`: `none` on non-objects. -/
def jget : Json → String → Option Json
  | .obj fields, key => jlookup fields key
  | _, _ => none

/-- `Value::get(index)`: `none` on non-arrays. -/
def jgetIdx : Json → Nat → Option Json
  | .arr xs, i => xs.get? i
  | _, _ => none

/-- `Value::as_str`. -/
def jasStr : Json → Option String
  | .str s => some s
  | _ => none

/-- The strict `serde_json::from_str::<ChatResponse>` shape of
`src/ollama.rs`: an object whose `message` field is an object whose
`content` field is a string (unknown fields are ignored, as serde
does by default). -/
def ollamaStrictContent : Json → Option String
  | .obj fields =>
    match jlookup fields "message" with
    | some (.obj mf) =>
      match jlookup mf "content" with
      | some (.str s) => some s
      | _ => none
    | _ => none
  | _ => none

/-- The fallback field walk of `src/ollama.rs` lines 155-168:
`json.get("message").and_then(get("content")).and_then(as_str)`. -/
def ollamaFallbackContent (j : Json) : Option String :=
  (jget j "message").bind (fun m => (jget m "content").bind jasStr)

/-- Strict parse of one `Choice` (`message.content` string). -/
def parseChoice : Json → Option String
  | .obj fields =>
    match jlookup fields "message" with
    | some (.obj mf) =>
      match jlookup mf "content" with
      | some (.str s) => some s
      | _ => none
    | _ => none
  | _ => none

/-- Strict parse of the `choices` vector: every element must parse. -/
def parseChoices : List Json → Option (List String)
  | [] => some []
  | j :: js =>
    match parseChoice j with
    | some s =>
      match parseChoices js with
      | some ss => some (s :: ss)
      | none => none
    | none => none

/-- The strict `serde_json::from_str::<LlamaCppResponse>` shape of
`src/llamacpp.rs`: an object with a `choices` array of choices. -/
def llamacppStrictContents : Json → Option (List String)
  | .obj fields =>
    match jlookup fields "choices" with
    | some (.arr js) => parseChoices js
    | _ => none
  | _ => none

/-- The fallback field walk of `src/llamacpp.rs` lines 239-259:
`json.get("choices").get(0).get("message").get("content").as_str()`. -/
def llamacppFallbackContent (j : Json) : Option String :=
  (jget j "choices").bind (fun cs => (jgetIdx cs 0).bind (fun c0 =>
    (jget c0 "message").bind (fun m => (jget m "content").bind jasStr)))

/-- Outcome of one dispatch attempt: a description, a recorded failure
(sets `last_error` and marks the host), or an early return that aborts
the whole loop (the `?` on a failed body read of a success response). -/
inductive AttemptResult where
  | success (description : String)
  | failure (e : ImageAnalysisError)
  | abort (e : ImageAnalysisError)
deriving DecidableEq, Repr

inductive WireResult where
  | timeout
  | transportError (msg : String)
  | response (status : Nat) (body : Except String (String × Option Json))

/-- `reqwest::StatusCode::is_success()`: 2xx. -/
def isSuccessStatus (status : Nat) : Bool := 200 ≤ status && status ≤ 299

/-- Rust's `str::trim` (strip whitespace from both ends), written with
structural recursion so concrete evaluations reduce. -/
def rustTrim (s : String) : String :=
  String.mk (((s.data.dropWhile Char.isWhitespace).reverse.dropWhile
    Char.isWhitespace).reverse)

/-- Body handling of a success-status Ollama response
(`src/ollama.rs` lines 139-175): strict parse, then the fallback walk
accepting only non-empty trimmed text. -/
def ollamaHandleBody (filename : String) (json : Option Json) : AttemptResult :=
  match json with
  | none => .failure (.jsonParsing filename "parse error")
  | some j =>
    match ollamaStrictContent j with
    | some content =>
      let description := rustTrim content
      if description.isEmpty then .failure (.emptyResponse filename)
      else .success description
    | none =>
      match ollamaFallbackContent j with
      | some content =>
        let description := rustTrim content
        if !description.isEmpty then .success description
        else .failure (.jsonParsing filename "parse error")
      | none => .failure (.jsonParsing filename "parse error")

/-- Body handling of a success-status llama.cpp response
(`src/llamacpp.rs` lines 210-265): strict parse (empty `choices` is
`EmptyResponse`), then the fallback walk accepting only non-empty
trimmed text. -/
def llamacppHandleBody (filename : String) (json : Option Json) : AttemptResult :=
  match json with
  | none => .failure (.jsonParsing filename "parse error")
  | some j =>
    match llamacppStrictContents j with
    | some contents =>
      match contents.head? with
      | some content =>
        let description := rustTrim content
        if description.isEmpty then .failure (.emptyResponse filename)
        else .success description
      | none => .failure (.emptyResponse filename)
    | none =>
      match llamacppFallbackContent j with
      | some content =>
        let description := rustTrim content
        if !description.isEmpty then .success description
        else .failure (.jsonParsing filename "parse error")
      | none => .failure (.jsonParsing filename "parse error")

/-- Classification of one Ollama attempt (`src/ollama.rs` lines
124-196): timeout, transport error (`HttpError{status: 0}`),
non-success status (`HttpError` with body text, empty on read
failure), or success-status body handling; a failed body read of a
success response is the early-returning `ProcessingError`. -/
def classifyOllama (filename : String) (w : WireResult) : AttemptResult :=
  match w with
  | .timeout => .failure .ollamaRequestTimeout
  | .transportError msg => .failure (.httpError 0 filename msg)
  | .response status body =>
    if isSuccessStatus status then
      match body with
      | .error msg => .abort (.processingError filename msg)
      | .ok (_, json) => ollamaHandleBody filename json
    else
      match body with
      | .ok (raw, _) => .failure (.httpError status filename raw)
      | .error _ => .failure (.httpError status filename "")

/-- Classification of one llama.cpp attempt (`src/llamacpp.rs` lines
184-290), identical in structure to the Ollama one. -/
def classifyLlamacpp (filename : String) (w : WireResult) : AttemptResult :=
  match w with
  | .timeout => .failure .llamaCppRequestTimeout
  | .transportError msg => .failure (.httpError 0 filename msg)
  | .response status body =>
    if isSuccessStatus status then
      match body with
      | .error msg => .abort (.processingError filename msg)
      | .ok (_, json) => llamacppHandleBody filename json
    else
      match body with
      | .ok (raw, _) => .failure (.httpError status filename raw)
      | .error _ => .failure (.httpError status filename "")

/-- `host.trim_end_matches('/')`. -/
def stripTrailingSlashes (s : String) : String :=
  String.mk ((s.data.reverse.dropWhile (fun c => c = '/')).reverse)

/-- The Ollama endpoint: `format!("{}/api/chat", host.trim_end_matches('/'))`
(braces elided). -/
def ollamaUrl (host : String) : String := stripTrailingSlashes host ++ "/api/chat"

/-- The llama.cpp endpoint path `/v1/chat/completions`. -/
def llamacppUrl (host : String) : String :=
  stripTrailingSlashes host ++ "/v1/chat/completions"

/-- An issued request: URL plus optional bearer credential. -/
def ollamaRequest (host : String) : String × Option String := (ollamaUrl host, none)

/-- llama.cpp requests attach the configured API key as a bearer
credential when present. -/
def llamacppRequest (apiKey : Option String) (host : String) : String × Option String :=
  (llamacppUrl host, apiKey)

/-- `mark_host_unavailable` is called twice in a row at the end of a
failed llama.cpp attempt (`src/llamacpp.rs` lines 291-295). -/
def markHostTwice (m : HostManager) (h : String) (now : Nat) : HostManager :=
  mark_host_unavailable (mark_host_unavailable m h now) h now

/-- The dispatch-with-retry loop shared by both `analyze_image`
functions (`src/ollama.rs` lines 116-200, `src/llamacpp.rs` lines
159-297): `fuel` counts the remaining iterations of
`for _attempt in 0..hosts.len()`, `i` is the attempt index, `env i`
the wire outcome of attempt `i` and `times i` the clock at attempt
`i`.  Returns the outcome, the final router state and the issued
requests in order. -/
def attemptLoop (classify : WireResult → AttemptResult)
    (request : String → String × Option String)
    (markStep : HostManager → String → Nat → HostManager)
    (env : Nat → WireResult) (times : Nat → Nat) :
    Nat → Nat → HostManager → Option ImageAnalysisError →
    List (String × Option String) →
    Except ImageAnalysisError String × HostManager × List (String × Option String)
  | 0, _, mgr, lastError, reqs => (.error (lastError.getD .allHostsUnavailable), mgr, reqs)
  | fuel + 1, i, mgr, _lastError, reqs =>
    match get_available_host mgr (times i) with
    | (.error e, mgr') => (.error e, mgr', reqs)
    | (.ok host, mgr') =>
      match classify (env i) with
      | .success d => (.ok d, mgr', reqs ++ [request host])
      | .abort e => (.error e, mgr', reqs ++ [request host])
      | .failure e =>
        attemptLoop classify request markStep env times fuel (i + 1)
          (markStep mgr' host (times i)) (some e) (reqs ++ [request host])

/-- The filesystem view of the input image: `fs::metadata(...).len()`
(or its error) and the result of `File::open` + `read_to_end` (the
byte content itself only feeds the request body, which no claim
observes). -/
structure FileInput where
  metadataLen : Except String Nat
  readData : Except String Unit

/-- `ollama::analyze_image` (`src/ollama.rs` lines 70-201): resolve the
identifier, validate the file (metadata error and zero length and read
error each terminate before any host selection), then run the retry
loop.  Returns the outcome (description and asset id), the final
router state and the issued requests. -/
def ollama_analyze_image (filename : String) (file : FileInput) (hm : HostManager)
    (env : Nat → WireResult) (times : Nat → Nat) :
    Except ImageAnalysisError (String × String) × HostManager ×
      List (String × Option String) :=
  match extract_uuid_from_preview_filename filename with
  | .error e => (.error e, hm, [])
  | .ok assetId =>
    match file.metadataLen with
    | .error msg => (.error (.processingError filename msg), hm, [])
    | .ok len =>
      if len = 0 then (.error (.emptyFile filename), hm, [])
      else
        match file.readData with
        | .error msg => (.error (.processingError filename msg), hm, [])
        | .ok _ =>
          match attemptLoop (classifyOllama filename) ollamaRequest
              mark_host_unavailable env times hm.hosts.length 0 hm none [] with
          | (.ok d, mgr, reqs) => (.ok (d, assetId), mgr, reqs)
          | (.error e, mgr, reqs) => (.error e, mgr, reqs)

/-- `llamacpp::analyze_image` (`src/llamacpp.rs` lines 96-298), same
shape as the Ollama variant plus the bearer credential. -/
def llamacpp_analyze_image (filename : String) (apiKey : Option String)
    (file : FileInput) (hm : HostManager)
    (env : Nat → WireResult) (times : Nat → Nat) :
    Except ImageAnalysisError (String × String) × HostManager ×
      List (String × Option String) :=
  match extract_uuid_from_preview_filename filename with
  | .error e => (.error e, hm, [])
  | .ok assetId =>
    match file.metadataLen with
    | .error msg => (.error (.processingError filename msg), hm, [])
    | .ok len =>
      if len = 0 then (.error (.emptyFile filename), hm, [])
      else
        match file.readData with
        | .error msg => (.error (.processingError filename msg), hm, [])
        | .ok _ =>
          match attemptLoop (classifyLlamacpp filename) (llamacppRequest apiKey)
              markHostTwice env times hm.hosts.length 0 hm none [] with
          | (.ok d, mgr, reqs) => (.ok (d, assetId), mgr, reqs)
          | (.error e, mgr, reqs) => (.error e, mgr, reqs)

/-- `process_file` (`src/file_processing.rs` lines 142-183): resolve
the identifier, construct a FRESH host manager (its unavailability map
starts empty on every invocation), dispatch to the configured backend
variant, and on success record the upsert
(`update_or_create_asset_description`) as a database write.  Returns
the outcome, the issued requests and the database writes. -/
def process_file (interface : Interface) (hosts : List String) (apiKey : Option String)
    (unavailableDuration : Nat) (filename : String) (file : FileInput)
    (env : Nat → WireResult) (times : Nat → Nat) :
    Except ImageAnalysisError (String × String) ×
      List (String × Option String) × List (String × String) :=
  match extract_uuid_from_preview_filename filename with
  | .error e => (.error e, [], [])
  | .ok _ =>
    let res :=
      match interface with
      | .ollama =>
        ollama_analyze_image filename file
          (HostManager.new hosts unavailableDuration) env times
      | .llamacpp =>
        llamacpp_analyze_image filename apiKey file
          (HostManager.new hosts unavailableDuration) env times
    match res with
    | (.ok (d, assetId), _, reqs) => (.ok (d, assetId), reqs, [(assetId, d)])
    | (.error e, _, reqs) => (.error e, reqs, [])

/-- Proof-level description of the router state during one retry run
that started from a fresh manager: after `i` failed attempts the map
holds the first `i` pool hosts, marked at their attempt times. -/
def marksUpTo (hosts : List String) (times : Nat → Nat) (i : Nat) : List (String × Nat) :=
  (List.range i).map (fun j => (hosts.getD j "", times j))

/-- The manager state after `i` failed attempts of a fresh run. -/
def routerStateAt (hosts : List String) (dur : Nat) (times : Nat → Nat) (i : Nat) :
    HostManager :=
  { hosts := hosts, unavailable := marksUpTo hosts times i, unavailableDuration := dur }

/-! ## Monitor mode (`src/monitor.rs`)

`process_new_file` waits for the file size to stabilise, resolves the
identifier, consults the store, and then always builds an
`OllamaHostManager` and calls `ollama::analyze_image` — the
configuration's `interface` selection is not consulted (`MonitorConfig`
in `src/config.rs` carries `interface` and `api_key` fields, but
`src/monitor.rs` ignores them, and constructs its
`FileProcessingConfig` without them).  Polls are modelled at times
`k * fileCheckInterval` with `sizes k` the observed length at poll `k`
(`none` when `fs::metadata` fails). -/

/-- The `FileProcessingConfig` literal that `monitor_folder` builds
(`src/monitor.rs` lines 253-260): note there is no interface or API
key field. -/
structure FileProcessingConfig where
  file_write_timeout : Nat
  file_check_interval : Nat
  ignore_existing : Bool
  ollama_hosts : List String
  unavailable_duration : Nat
  request_timeout : Nat

/-- `MonitorConfig` from `src/config.rs`, including the `interface`
and `api_key` the monitor never reads. -/
structure MonitorConfig where
  file_write_timeout : Nat
  file_check_interval : Nat
  event_cooldown : Nat
  timeout : Nat
  lang : String
  ignore_existing : Bool
  hosts : List String
  interface : Interface
  api_key : Option String
  unavailable_duration : Nat

/-- The stability-wait loop of `process_new_file` (`src/monitor.rs`
lines 47-67): while elapsed time is under the timeout, poll the size;
an unchanged non-zero size bumps the counter (3 ends the wait,
returning the poll index), a change resets counter and baseline, a
metadata failure changes nothing.  `fuel` bounds the iterations (the
caller passes enough for the time check to fire first whenever the
interval is positive). -/
def stabilityGo (sizes : Nat → Option Nat) (interval timeout : Nat) :
    Nat → Nat → Nat → Nat → Option Nat
  | 0, _, _, _ => none
  | fuel + 1, k, lastSize, stableCount =>
    if k * interval < timeout then
      match sizes k with
      | some size =>
        if size = lastSize ∧ 0 < size then
          if 3 ≤ stableCount + 1 then some k
          else stabilityGo sizes interval timeout fuel (k + 1) lastSize (stableCount + 1)
        else stabilityGo sizes interval timeout fuel (k + 1) size 0
      | none => stabilityGo sizes interval timeout fuel (k + 1) lastSize stableCount
    else none

/-- The full stability wait: `last_size = 0`, `stable_count = 0`,
polls start at elapsed 0.  `some k` means stable at poll `k`
(dispatch); `none` means `FileWriteTimeout`. -/
def stabilityWait (sizes : Nat → Option Nat) (timeout interval : Nat) : Option Nat :=
  stabilityGo sizes interval timeout (timeout + 1) 0 0 0

/-- `process_new_file` (`src/monitor.rs` lines 30-120): stability wait,
identifier resolution, duplicate check (`asset_has_description`,
modelled by the external predicate `hasDesc`), then a FRESH
`OllamaHostManager` and the Ollama backend — unconditionally.  Returns
the outcome, the issued requests and the database writes. -/
def process_new_file (filename : String) (sizes : Nat → Option Nat)
    (hasDesc : String → Bool) (cfg : FileProcessingConfig) (file : FileInput)
    (env : Nat → WireResult) (times : Nat → Nat) :
    Except ImageAnalysisError Unit × List (String × Option String) ×
      List (String × String) :=
  match stabilityWait sizes cfg.file_write_timeout cfg.file_check_interval with
  | none => (.error (.fileWriteTimeout cfg.file_write_timeout filename), [], [])
  | some _ =>
    match extract_uuid_from_preview_filename filename with
    | .error e => (.error e, [], [])
    | .ok assetId =>
      if !cfg.ignore_existing && hasDesc assetId then (.ok (), [], [])
      else
        match ollama_analyze_image filename file
            (HostManager.new cfg.ollama_hosts cfg.unavailable_duration) env times with
        | (.ok (d, aid), _, reqs) => (.ok (), reqs, [(aid, d)])
        | (.error e, _, reqs) => (.error e, reqs, [])

/-- The spawn body of `monitor_folder` (`src/monitor.rs` lines
245-261): builds the `FileProcessingConfig` from the `MonitorConfig`,
dropping `interface` and `api_key` on the floor. -/
def monitor_process_new_file (cfg : MonitorConfig) (filename : String)
    (sizes : Nat → Option Nat) (hasDesc : String → Bool) (file : FileInput)
    (env : Nat → WireResult) (times : Nat → Nat) :
    Except ImageAnalysisError Unit × List (String × Option String) ×
      List (String × String) :=
  process_new_file filename sizes hasDesc
    { file_write_timeout := cfg.file_write_timeout,
      file_check_interval := cfg.file_check_interval,
      ignore_existing := cfg.ignore_existing,
      ollama_hosts := cfg.hosts,
      unavailable_duration := cfg.unavailable_duration,
      request_timeout := cfg.timeout } file env times

/-- Filesystem event kinds the watcher distinguishes:
`EventKind::Create(_)`, `EventKind::Modify(ModifyKind::Data(_))`, and
everything else. -/
inductive EvKind where
  | create
  | modifyData
  | otherKind
deriving DecidableEq, Repr

/-- One input to the watcher's event-draining loop: a raw filesystem
event (kind, whether the path is a regular file, filename, arrival
time) or the completion callback of a spawned pipeline run. -/
inductive MonAction where
  | fsEvent (kind : EvKind) (isFile : Bool) (filename : String) (time : Nat)
  | complete (filename : String)
deriving DecidableEq, Repr

/-- The watcher's mutable state: the `last_events` debounce table and
the `processing_files` in-flight set (`src/monitor.rs` lines 190-191). -/
structure MonState where
  lastEvents : List (String × Nat)
  inFlight : List String
deriving DecidableEq, Repr

/-- Both tables start empty. -/
def monInit : MonState := { lastEvents := [], inFlight := [] }

/-- The `-preview.` marker of the monitor's filename filter. -/
def previewDotChars : List Char := "-preview.".data

/-- The event filter (`src/monitor.rs` lines 205-213): create or
data-modify events on regular files whose name contains `-preview.`. -/
def qualifiesEvent (kind : EvKind) (isFile : Bool) (filename : String) : Bool :=
  (kind == .create || kind == .modifyData) && isFile &&
    containsSeq filename.data previewDotChars

/-- `last_events.get(&filename)`. -/
def lookupAssoc : List (String × Nat) → String → Option Nat
  | [], _ => none
  | p :: rest, k => if p.1 == k then some p.2 else lookupAssoc rest k

/-- Admission past the cooldown check (`src/monitor.rs` lines
224-236): record the event time, then dispatch unless the filename is
already in flight; a dispatch inserts the filename into the in-flight
set immediately before spawning. -/
def admitEvent (s : MonState) (name : String) (time : Nat) : MonState × Option String :=
  let le := insertAssoc s.lastEvents name time
  if s.inFlight.contains name then
    ({ s with lastEvents := le }, none)
  else
    ({ lastEvents := le, inFlight := name :: s.inFlight }, some name)

/-- One step of the watcher loop (`src/monitor.rs` lines 201-273): a
qualifying event is suppressed (no state change) when the same
filename produced an admitted event less than `cooldown` ago,
otherwise admitted; a completion callback removes the filename from
the in-flight set unconditionally.  The second component is the
dispatched filename, if any. -/
def monStep (cooldown : Nat) (s : MonState) (a : MonAction) : MonState × Option String :=
  match a with
  | .complete name =>
    ({ s with inFlight := s.inFlight.filter (fun x => x ≠ name) }, none)
  | .fsEvent kind isFile name time =>
    if qualifiesEvent kind isFile name then
      match lookupAssoc s.lastEvents name with
      | some last =>
        if time - last < cooldown then (s, none)
        else admitEvent s name time
      | none => admitEvent s name time
    else (s, none)

/-- Run the watcher over a sequence of actions, collecting dispatches
in order. -/
def monRun (cooldown : Nat) : MonState → List MonAction → MonState × List String
  | s, [] => (s, [])
  | s, a :: rest =>
    let step := monStep cooldown s a
    let next := monRun cooldown step.1 rest
    (next.1, (match step.2 with | some n => [n] | none => []) ++ next.2)

/-- Completion callbacks for `name` in the action sequence. -/
def countCompletes (acts : List MonAction) (name : String) : Nat :=
  acts.countP (fun a => match a with
    | .complete n => n == name
    | _ => false)

/-- Well-formed action sequences: a completion callback only arrives
for a filename whose pipeline run is actually in flight (each spawned
run ends exactly once, via the removal at `src/monitor.rs` lines
262-265). -/
def validFrom (cooldown : Nat) : MonState → List MonAction → Bool
  | _, [] => true
  | s, a :: rest =>
    (match a with
     | .complete name => s.inFlight.contains name
     | _ => true) && validFrom cooldown (monStep cooldown s a).1 rest

/-- 1 when `name` is in flight in `s`, else 0. -/
def occIn (s : MonState) (name : String) : Nat :=
  if name ∈ s.inFlight then 1 else 0

/-! ## Theorems -/

theorem takeHex_sound : ∀ (n : Nat) (cs u r : List Char), takeHex n cs = some (u, r) →
    cs = u ++ r ∧ u.length = n ∧ ∀ c ∈ u, isLowerHexDigit c = true := by
  intro n
  induction n with
  | zero =>
    intro cs u r h
    simp [takeHex] at h
    obtain ⟨hu, hr⟩ := h
    subst hu; subst hr
    simp
  | succ n ih =>
    intro cs u r h
    cases cs with
    | nil => simp [takeHex] at h
    | cons c cs' =>
      by_cases hc : isLowerHexDigit c
      · rw [takeHex] at h
        cases h2 : takeHex n cs' with
        | none => simp [hc, h2] at h
        | some pr =>
          obtain ⟨u', r'⟩ := pr
          simp [hc, h2] at h
          obtain ⟨hu, hr⟩ := h
          obtain ⟨h1, h2', h3⟩ := ih cs' u' r' h2
          refine ⟨?_, ?_, ?_⟩
          · rw [← hu, ← hr, h1]; rfl
          · rw [← hu]; simp [h2']
          · intro x hx
            rw [← hu] at hx
            cases hx with
            | head => exact hc
            | tail _ hx' => exact h3 x hx'
      · simp [takeHex, hc] at h

theorem takeHex_complete : ∀ (u r : List Char), (∀ c ∈ u, isLowerHexDigit c = true) →
    takeHex u.length (u ++ r) = some (u, r) := by
  intro u
  induction u with
  | nil => intro r _; simp [takeHex]
  | cons c u' ih =>
    intro r hhex
    have hc : isLowerHexDigit c = true := hhex c (by simp)
    have ih' := ih r (fun x hx => hhex x (by simp [hx]))
    simp [takeHex, hc, ih']

theorem matchDash_sound (cs r : List Char) (h : matchDash cs = some r) : cs = '-' :: r := by
  cases cs with
  | nil => simp [matchDash] at h
  | cons c cs' =>
    by_cases hc : c = '-'
    · subst hc
      simp [matchDash] at h
      rw [h]
    · simp [matchDash, hc] at h

theorem matchDash_complete (r : List Char) : matchDash ('-' :: r) = some r := by
  simp [matchDash]


theorem matchUuid_sound (cs u r : List Char) (h : matchUuid cs = some (u, r)) :
    cs = u ++ r ∧ IsUuid u := by
  simp only [matchUuid, bind, Option.bind_eq_some, Option.pure_def,
    Option.some.injEq, Prod.mk.injEq, Prod.exists] at h
  obtain ⟨g1, r1, ht1, r2, hd1, g2, r3, ht2, r4, hd2, g3, r5, ht3, r6, hd3,
    g4, r7, ht4, r8, hd4, g5, r9, ht5, hu, hr⟩ := h
  obtain ⟨e1, l1, x1⟩ := takeHex_sound 8 cs g1 r1 ht1
  have e2 := matchDash_sound r1 r2 hd1
  obtain ⟨e3, l3, x3⟩ := takeHex_sound 4 r2 g2 r3 ht2
  have e4 := matchDash_sound r3 r4 hd2
  obtain ⟨e5, l5, x5⟩ := takeHex_sound 4 r4 g3 r5 ht3
  have e6 := matchDash_sound r5 r6 hd3
  obtain ⟨e7, l7, x7⟩ := takeHex_sound 4 r6 g4 r7 ht4
  have e8 := matchDash_sound r7 r8 hd4
  obtain ⟨e9, l9, x9⟩ := takeHex_sound 12 r8 g5 r9 ht5
  constructor
  · rw [e1, e2, e3, e4, e5, e6, e7, e8, e9, ← hu, ← hr]
    simp
  · refine ⟨g1, g2, g3, g4, g5, hu.symm, l1, l3, l5, l7, l9, ?_⟩
    intro c hc
    simp only [List.mem_append] at hc
    rcases hc with ((((h' | h') | h') | h') | h')
    · exact x1 c h'
    · exact x3 c h'
    · exact x5 c h'
    · exact x7 c h'
    · exact x9 c h'

theorem matchUuid_complete (u r : List Char) (hu : IsUuid u) :
    matchUuid (u ++ r) = some (u, r) := by
  obtain ⟨g1, g2, g3, g4, g5, he, l1, l2, l3, l4, l5, hhex⟩ := hu
  have hx1 : ∀ c ∈ g1, isLowerHexDigit c = true := fun c hc => hhex c (by simp [hc])
  have hx2 : ∀ c ∈ g2, isLowerHexDigit c = true := fun c hc => hhex c (by simp [hc])
  have hx3 : ∀ c ∈ g3, isLowerHexDigit c = true := fun c hc => hhex c (by simp [hc])
  have hx4 : ∀ c ∈ g4, isLowerHexDigit c = true := fun c hc => hhex c (by simp [hc])
  have hx5 : ∀ c ∈ g5, isLowerHexDigit c = true := fun c hc => hhex c (by simp [hc])
  subst he
  have t1 : takeHex 8 (g1 ++ '-' :: (g2 ++ '-' :: (g3 ++ '-' :: (g4 ++ '-' :: (g5 ++ r))))) =
      some (g1, '-' :: (g2 ++ '-' :: (g3 ++ '-' :: (g4 ++ '-' :: (g5 ++ r))))) := by
    rw [← l1]; exact takeHex_complete g1 _ hx1
  have t2 : takeHex 4 (g2 ++ '-' :: (g3 ++ '-' :: (g4 ++ '-' :: (g5 ++ r)))) =
      some (g2, '-' :: (g3 ++ '-' :: (g4 ++ '-' :: (g5 ++ r)))) := by
    rw [← l2]; exact takeHex_complete g2 _ hx2
  have t3 : takeHex 4 (g3 ++ '-' :: (g4 ++ '-' :: (g5 ++ r))) =
      some (g3, '-' :: (g4 ++ '-' :: (g5 ++ r))) := by
    rw [← l3]; exact takeHex_complete g3 _ hx3
  have t4 : takeHex 4 (g4 ++ '-' :: (g5 ++ r)) = some (g4, '-' :: (g5 ++ r)) := by
    rw [← l4]; exact takeHex_complete g4 _ hx4
  have t5 : takeHex 12 (g5 ++ r) = some (g5, r) := by
    rw [← l5]; exact takeHex_complete g5 r hx5
  simp [matchUuid, List.append_assoc, List.cons_append, t1, t2, t3, t4, t5,
    matchDash_complete]

theorem dropSeq_sound : ∀ (pat cs r : List Char), dropSeq pat cs = some r → cs = pat ++ r := by
  intro pat
  induction pat with
  | nil => intro cs r h; simp [dropSeq] at h; simp [h]
  | cons p ps ih =>
    intro cs r h
    cases cs with
    | nil => simp [dropSeq] at h
    | cons c cs' =>
      by_cases hc : c = p
      · subst hc
        simp [dropSeq] at h
        rw [ih cs' r h]
        simp
      · simp [dropSeq, hc] at h

theorem dropSeq_complete : ∀ (pat r : List Char), dropSeq pat (pat ++ r) = some r := by
  intro pat
  induction pat with
  | nil => intro r; simp [dropSeq]
  | cons p ps ih => intro r; simp [dropSeq, ih]

theorem isUuid_ne_nil (u : List Char) (hu : IsUuid u) : u ≠ [] := by
  obtain ⟨g1, g2, g3, g4, g5, he, l1, _, _, _, _, _⟩ := hu
  rw [he]; cases g1 <;> simp

theorem findPreviewUuid_sound : ∀ (cs u : List Char), findPreviewUuid cs = some u →
    ∃ p q, cs = p ++ u ++ (previewChars ++ q) ∧ IsUuid u := by
  intro cs
  induction cs with
  | nil => intro u h; simp [findPreviewUuid] at h
  | cons c cs' ih =>
    intro u h
    rw [findPreviewUuid] at h
    split at h
    case _ u0 rest h1 =>
      split at h
      case _ q h2 =>
        simp at h
        subst h
        obtain ⟨he, hiu⟩ := matchUuid_sound _ _ _ h1
        refine ⟨[], q, ?_, hiu⟩
        rw [he, dropSeq_sound _ _ _ h2]
        simp
      case _ h2 =>
        obtain ⟨p, q, he, hiu⟩ := ih u h
        exact ⟨c :: p, q, by rw [he]; rfl, hiu⟩
    case _ h1 =>
      obtain ⟨p, q, he, hiu⟩ := ih u h
      exact ⟨c :: p, q, by rw [he]; rfl, hiu⟩

theorem findPreviewUuid_complete : ∀ (p u q : List Char), IsUuid u →
    (findPreviewUuid (p ++ u ++ (previewChars ++ q))).isSome := by
  intro p
  induction p with
  | nil =>
    intro u q hu
    have hne : u ≠ [] := isUuid_ne_nil u hu
    cases hcs : u ++ (previewChars ++ q) with
    | nil =>
      simp at hcs
      exact absurd hcs.1 hne
    | cons c cs' =>
      have hm : matchUuid (c :: cs') = some (u, previewChars ++ q) := by
        rw [← hcs]
        exact matchUuid_complete u _ hu
      simp only [List.nil_append, hcs, findPreviewUuid, hm, dropSeq_complete]
      rfl
  | cons x p' ih =>
    intro u q hu
    simp only [List.cons_append, findPreviewUuid]
    split
    · split
      · rfl
      · exact ih u q hu
    · exact ih u q hu

theorem findUuid_sound : ∀ (cs u : List Char), findUuid cs = some u →
    ∃ p q, cs = p ++ u ++ q ∧ IsUuid u := by
  intro cs
  induction cs with
  | nil => intro u h; simp [findUuid] at h
  | cons c cs' ih =>
    intro u h
    rw [findUuid] at h
    split at h
    case _ u0 rest h1 =>
      simp at h
      subst h
      obtain ⟨he, hiu⟩ := matchUuid_sound _ _ _ h1
      exact ⟨[], rest, by rw [he]; simp, hiu⟩
    case _ h1 =>
      obtain ⟨p, q, he, hiu⟩ := ih u h
      exact ⟨c :: p, q, by rw [he]; rfl, hiu⟩

theorem findUuid_complete : ∀ (p u q : List Char), IsUuid u →
    (findUuid (p ++ u ++ q)).isSome := by
  intro p
  induction p with
  | nil =>
    intro u q hu
    have hne : u ≠ [] := isUuid_ne_nil u hu
    cases hcs : u ++ q with
    | nil =>
      simp at hcs
      exact absurd hcs.1 hne
    | cons c cs' =>
      have hm : matchUuid (c :: cs') = some (u, q) := by
        rw [← hcs]
        exact matchUuid_complete u q hu
      simp only [List.nil_append, hcs, findUuid, hm]
      rfl
  | cons x p' ih =>
    intro u q hu
    simp only [List.cons_append, findUuid]
    split
    · rfl
    · exact ih u q hu

/-- C1 (amended): the resolver returns an identifier adjacent to the
`-preview` marker when one occurs in the filename; otherwise it falls
back to any canonical dashed-hex identifier occurring anywhere in the
filename; it returns `InvalidUuid` exactly when the filename contains
no canonical dashed-hex identifier at all. -/
theorem extract_uuid_resolution_amended (s : String) :
    ((∃ p u q, s.data = p ++ u ++ (previewChars ++ q) ∧ IsUuid u) →
      ∃ u p q, extract_uuid_from_preview_filename s = .ok (String.mk u) ∧
        s.data = p ++ u ++ (previewChars ++ q) ∧ IsUuid u) ∧
    ((¬ ∃ p u q, s.data = p ++ u ++ (previewChars ++ q) ∧ IsUuid u) →
      (∃ p u q, s.data = p ++ u ++ q ∧ IsUuid u) →
      ∃ u p q, extract_uuid_from_preview_filename s = .ok (String.mk u) ∧
        s.data = p ++ u ++ q ∧ IsUuid u) ∧
    ((¬ ∃ p u q, s.data = p ++ u ++ q ∧ IsUuid u) →
      extract_uuid_from_preview_filename s = .error (.invalidUuid s)) := by
  refine ⟨?_, ?_, ?_⟩
  · rintro ⟨p, u, q, he, hu⟩
    have h1 : (findPreviewUuid s.data).isSome := by
      rw [he]; exact findPreviewUuid_complete p u q hu
    obtain ⟨u', h2⟩ := Option.isSome_iff_exists.mp h1
    obtain ⟨p', q', he', hu'⟩ := findPreviewUuid_sound _ _ h2
    refine ⟨u', p', q', ?_, he', hu'⟩
    simp only [extract_uuid_from_preview_filename, h2]
  · intro hno hex
    obtain ⟨p, u, q, he, hu⟩ := hex
    have h1 : findPreviewUuid s.data = none := by
      cases h : findPreviewUuid s.data with
      | none => rfl
      | some u0 =>
        obtain ⟨p', q', he', hu'⟩ := findPreviewUuid_sound _ _ h
        exact absurd ⟨p', u0, q', he', hu'⟩ hno
    have h2 : (findUuid s.data).isSome := by
      rw [he]; exact findUuid_complete p u q hu
    obtain ⟨u', h3⟩ := Option.isSome_iff_exists.mp h2
    obtain ⟨p', q', he', hu'⟩ := findUuid_sound _ _ h3
    refine ⟨u', p', q', ?_, he', hu'⟩
    simp only [extract_uuid_from_preview_filename, h1, h3]
  · intro hno
    have h1 : findPreviewUuid s.data = none := by
      cases h : findPreviewUuid s.data with
      | none => rfl
      | some u0 =>
        obtain ⟨p', q', he', hu'⟩ := findPreviewUuid_sound _ _ h
        exact absurd ⟨p', u0, previewChars ++ q', he', hu'⟩ hno
    have h2 : findUuid s.data = none := by
      cases h : findUuid s.data with
      | none => rfl
      | some u0 =>
        obtain ⟨p', q', he', hu'⟩ := findUuid_sound _ _ h
        exact absurd ⟨p', u0, q', he', hu'⟩ hno
    simp only [extract_uuid_from_preview_filename, h1, h2]

/-- C1 counterexample: a filename carrying a canonical dashed-hex
identifier but no `-preview` marker anywhere does NOT yield
`InvalidUuid` — the fallback regex resolves it, contradicting the
claim that every filename lacking the marker yields `InvalidUuid`. -/
theorem extract_uuid_no_marker_fallback :
    containsSeq "a1b2c3d4-e5f6-47a8-89ab-0123456789ab.jpg".data previewChars = false ∧
    extract_uuid_from_preview_filename "a1b2c3d4-e5f6-47a8-89ab-0123456789ab.jpg" =
      .ok "a1b2c3d4-e5f6-47a8-89ab-0123456789ab" := by
  constructor
  · decide
  · rfl

theorem extract_uuid_resolution_amended_witness :
    ∃ u p q,
      extract_uuid_from_preview_filename
          "a1b2c3d4-e5f6-47a8-89ab-0123456789ab-preview.jpg" = .ok (String.mk u) ∧
      "a1b2c3d4-e5f6-47a8-89ab-0123456789ab-preview.jpg".data =
        p ++ u ++ (previewChars ++ q) ∧ IsUuid u :=
  (extract_uuid_resolution_amended "a1b2c3d4-e5f6-47a8-89ab-0123456789ab-preview.jpg").1
    ⟨[], "a1b2c3d4-e5f6-47a8-89ab-0123456789ab".data, ".jpg".data, by decide,
      "a1b2c3d4".data, "e5f6".data, "47a8".data, "89ab".data, "0123456789ab".data,
      by decide, by decide, by decide, by decide, by decide, by decide, by decide⟩

theorem containsKey_iff (m : List (String × Nat)) (h : String) :
    containsKey m h = true ↔ ∃ t, (h, t) ∈ m := by
  simp only [containsKey, List.any_eq_true]
  constructor
  · rintro ⟨p, hp, he⟩
    have : p.1 = h := by simpa using he
    exact ⟨p.2, by rw [← this]; exact hp⟩
  · rintro ⟨t, ht⟩
    exact ⟨(h, t), ht, by simp⟩

theorem containsKey_expire_iff (m : HostManager) (now : Nat) (h : String) :
    containsKey (expireHosts m now).unavailable h = true ↔ HasUnexpiredMark m now h := by
  rw [containsKey_iff]
  simp only [expireHosts, HasUnexpiredMark, List.mem_filter]
  constructor
  · rintro ⟨t, ht, hlt⟩
    exact ⟨t, ht, by simpa using hlt⟩
  · rintro ⟨t, ht, hlt⟩
    exact ⟨t, ht, by simpa using hlt⟩

theorem find?_first {α : Type} (p : α → Bool) :
    ∀ (l1 : List α) (x : α) (l2 : List α), (∀ y ∈ l1, p y = false) → p x = true →
      List.find? p (l1 ++ x :: l2) = some x := by
  intro l1
  induction l1 with
  | nil => intro x l2 _ hx; simp [List.find?_cons, hx]
  | cons y l1' ih =>
    intro x l2 hall hx
    have hy : p y = false := hall y (by simp)
    simp only [List.cons_append, List.find?_cons, hy]
    exact ih x l2 (fun z hz => hall z (by simp [hz])) hx

theorem minEntry_eq_none_iff (l : List (String × Nat)) : minEntry l = none ↔ l = [] := by
  cases l with
  | nil => simp [minEntry]
  | cons p ps =>
    simp only [minEntry]
    cases h : minEntry ps with
    | none => simp
    | some q =>
      constructor
      · intro hc
        by_cases hle : p.2 ≤ q.2 <;> simp [hle] at hc
      · intro hc; cases hc

theorem minEntry_spec : ∀ (l : List (String × Nat)) (p : String × Nat),
    minEntry l = some p → p ∈ l ∧ ∀ q ∈ l, p.2 ≤ q.2 := by
  intro l
  induction l with
  | nil => intro p h; simp [minEntry] at h
  | cons x xs ih =>
    intro p h
    simp only [minEntry] at h
    cases h1 : minEntry xs with
    | none =>
      rw [h1] at h
      simp at h
      subst h
      have hnil : xs = [] := (minEntry_eq_none_iff xs).mp h1
      subst hnil
      simp
    | some q =>
      rw [h1] at h
      obtain ⟨hq, hmin⟩ := ih q h1
      by_cases hle : x.2 ≤ q.2
      · simp [hle] at h
        subst h
        refine ⟨by simp, ?_⟩
        intro z hz
        cases hz with
        | head => exact Nat.le_refl _
        | tail _ hz' => exact Nat.le_trans hle (hmin z hz')
      · simp [hle] at h
        subst h
        refine ⟨by simp [hq], ?_⟩
        intro z hz
        cases hz with
        | head => exact Nat.le_of_lt (Nat.lt_of_not_le hle)
        | tail _ hz' => exact hmin z hz'

/-- C3: `get_available_host` treats every host whose mark is at least
`unavailableDuration` old as available (lazy expiry), returns the
first pool host without an un-expired mark, falls back to the host
with the oldest un-expired mark when every host is marked, and fails
with `AllHostsUnavailable` exactly when the pool is empty.  The
hypothesis is the reachability invariant that every marked host
belongs to the pool (established by `new`, preserved by `mark`). -/
theorem get_available_host_selection_policy (m : HostManager) (now : Nat)
    (hinv : ∀ p ∈ m.unavailable, p.1 ∈ m.hosts) :
    (∀ h l1 l2, m.hosts = l1 ++ h :: l2 → (∀ h' ∈ l1, HasUnexpiredMark m now h') →
      ¬ HasUnexpiredMark m now h → (get_available_host m now).1 = .ok h) ∧
    (m.hosts ≠ [] → (∀ h ∈ m.hosts, HasUnexpiredMark m now h) →
      ∃ h t, (get_available_host m now).1 = .ok h ∧ (h, t) ∈ m.unavailable ∧
        now - t < m.unavailableDuration ∧
        ∀ p ∈ m.unavailable, now - p.2 < m.unavailableDuration → t ≤ p.2) ∧
    ((get_available_host m now).1 = .error .allHostsUnavailable ↔ m.hosts = []) := by
  have hhosts : (expireHosts m now).hosts = m.hosts := rfl
  refine ⟨?_, ?_, ?_⟩
  · intro h l1 l2 hdec hl1 hh
    have hfind : (expireHosts m now).hosts.find?
        (fun x => !containsKey (expireHosts m now).unavailable x) = some h := by
      rw [hhosts, hdec]
      apply find?_first
      · intro y hy
        have := (containsKey_expire_iff m now y).mpr (hl1 y hy)
        simp [this]
      · have : containsKey (expireHosts m now).unavailable h = false := by
          cases hc : containsKey (expireHosts m now).unavailable h with
          | false => rfl
          | true => exact absurd ((containsKey_expire_iff m now h).mp hc) hh
        simp [this]
    simp only [get_available_host, hfind]
  · intro hne hall
    have hfind : (expireHosts m now).hosts.find?
        (fun x => !containsKey (expireHosts m now).unavailable x) = none := by
      rw [List.find?_eq_none]
      intro x hx
      rw [hhosts] at hx
      have := (containsKey_expire_iff m now x).mpr (hall x hx)
      simp [this]
    obtain ⟨h0, hs0⟩ : ∃ h0, h0 ∈ m.hosts := by
      cases hl : m.hosts with
      | nil => exact absurd hl hne
      | cons a l => exact ⟨a, by simp⟩
    have hc0 : containsKey (expireHosts m now).unavailable h0 = true :=
      (containsKey_expire_iff m now h0).mpr (hall h0 hs0)
    have hfne : (expireHosts m now).unavailable ≠ [] := by
      intro hnil
      rw [hnil] at hc0
      simp [containsKey] at hc0
    obtain ⟨p, hmin⟩ : ∃ p, minEntry (expireHosts m now).unavailable = some p := by
      cases hm : minEntry (expireHosts m now).unavailable with
      | none => exact absurd ((minEntry_eq_none_iff _).mp hm) hfne
      | some p => exact ⟨p, rfl⟩
    obtain ⟨hpmem, hpmin⟩ := minEntry_spec _ p hmin
    simp only [expireHosts, List.mem_filter] at hpmem
    refine ⟨p.1, p.2, ?_, hpmem.1, by simpa using hpmem.2, ?_⟩
    · simp only [get_available_host, hfind, hmin]
    · intro q hq hqlt
      have hqf : q ∈ (expireHosts m now).unavailable := by
        simp only [expireHosts, List.mem_filter]
        exact ⟨hq, by simpa using hqlt⟩
      exact hpmin q hqf
  · constructor
    · intro herr
      by_contra hne
      obtain ⟨h0, hs0⟩ : ∃ h0, h0 ∈ m.hosts := by
        cases hl : m.hosts with
        | nil => exact absurd hl hne
        | cons a l => exact ⟨a, by simp⟩
      cases hf : (expireHosts m now).hosts.find?
          (fun x => !containsKey (expireHosts m now).unavailable x) with
      | some h =>
        simp only [get_available_host, hf] at herr
        cases herr
      | none =>
        cases hm : minEntry (expireHosts m now).unavailable with
        | some p =>
          simp only [get_available_host, hf, hm] at herr
          cases herr
        | none =>
          have hfnil : (expireHosts m now).unavailable = [] :=
            (minEntry_eq_none_iff _).mp hm
          have := List.find?_eq_none.mp hf h0 (by rw [hhosts]; exact hs0)
          rw [hfnil] at this
          simp [containsKey] at this
    · intro hnil
      have hunil : m.unavailable = [] := by
        cases hu : m.unavailable with
        | nil => rfl
        | cons p ps =>
          have := hinv p (by rw [hu]; simp)
          rw [hnil] at this
          cases this
      have hfnil : (expireHosts m now).unavailable = [] := by
        simp [expireHosts, hunil]
      have hf : (expireHosts m now).hosts.find?
          (fun x => !containsKey (expireHosts m now).unavailable x) = none := by
        rw [List.find?_eq_none]
        intro x hx
        rw [hhosts, hnil] at hx
        cases hx
      have hm : minEntry (expireHosts m now).unavailable = none := by
        rw [hfnil]; rfl
      simp only [get_available_host, hf, hm]

theorem get_available_host_selection_policy_witness :
    (get_available_host ⟨["a", "b"], [("a", 0)], 10⟩ 5).1 = .ok "b" :=
  (get_available_host_selection_policy ⟨["a", "b"], [("a", 0)], 10⟩ 5
    (by decide)).1 "b" ["a"] []
    rfl
    (fun h' hh' => by
      have he : h' = "a" := by simpa using hh'
      subst he
      exact ⟨0, by simp, by decide⟩)
    (by
      rintro ⟨t, ht, _⟩
      simp at ht)


theorem list_decomp {α : Type} (d : α) :
    ∀ (l : List α) (i : Nat), i < l.length → l = l.take i ++ l.getD i d :: l.drop (i + 1) := by
  intro l
  induction l with
  | nil => intro i h; simp at h
  | cons x xs ih =>
    intro i h
    cases i with
    | zero => simp [List.getD]
    | succ i' =>
      have h' : i' < xs.length := by simpa using h
      have := ih i' h'
      simp only [List.take_succ_cons, List.getD_cons_succ, List.drop_succ_cons]
      rw [List.cons_append]
      rw [← this]

theorem mem_take_index {α : Type} (d : α) :
    ∀ (l : List α) (i : Nat) (y : α), y ∈ l.take i →
      ∃ j, j < i ∧ j < l.length ∧ y = l.getD j d := by
  intro l
  induction l with
  | nil => intro i y h; simp at h
  | cons x xs ih =>
    intro i y h
    cases i with
    | zero => simp at h
    | succ i' =>
      simp only [List.take_succ_cons, List.mem_cons] at h
      cases h with
      | inl he => exact ⟨0, Nat.succ_pos _, by simp, by simp [he, List.getD]⟩
      | inr hm =>
        obtain ⟨j, hj1, hj2, hj3⟩ := ih i' y hm
        exact ⟨j + 1, by omega, by simpa using hj2, by simpa [List.getD_cons_succ] using hj3⟩

theorem getD_mem_take {α : Type} (d : α) :
    ∀ (l : List α) (j i : Nat), j < i → j < l.length → l.getD j d ∈ l.take i := by
  intro l
  induction l with
  | nil => intro j i _ h2; simp at h2
  | cons x xs ih =>
    intro j i h1 h2
    cases i with
    | zero => omega
    | succ i' =>
      cases j with
      | zero => simp [List.getD]
      | succ j' =>
        simp only [List.take_succ_cons, List.getD_cons_succ, List.mem_cons]
        exact Or.inr (ih j' i' (by omega) (by simpa using h2))

theorem nodup_getD_ne {α : Type} (d : α) (l : List α) (hnd : l.Nodup) (i j : Nat)
    (hi : i < l.length) (hj : j < l.length) (hne : i ≠ j) : l.getD i d ≠ l.getD j d := by
  intro he
  rw [List.getD_eq_getElem?_getD, List.getD_eq_getElem?_getD] at he
  rw [List.getElem?_eq_getElem hi, List.getElem?_eq_getElem hj] at he
  simp only [Option.getD_some] at he
  exact hne (List.Nodup.getElem_inj_iff hnd |>.mp he)

theorem marksUpTo_zero (hosts : List String) (times : Nat → Nat) :
    marksUpTo hosts times 0 = [] := rfl

theorem marksUpTo_succ (hosts : List String) (times : Nat → Nat) (i : Nat) :
    marksUpTo hosts times (i + 1) =
      marksUpTo hosts times i ++ [(hosts.getD i "", times i)] := by
  simp [marksUpTo, List.range_succ]

theorem containsKey_marksUpTo (hosts : List String) (times : Nat → Nat) (i : Nat)
    (y : String) :
    containsKey (marksUpTo hosts times i) y = true ↔ ∃ j, j < i ∧ y = hosts.getD j "" := by
  rw [containsKey_iff]
  simp only [marksUpTo, List.mem_map, List.mem_range]
  constructor
  · rintro ⟨t, j, hj, he⟩
    have h1 : hosts.getD j "" = y := congrArg Prod.fst he
    exact ⟨j, hj, h1.symm⟩
  · rintro ⟨j, hj, he⟩
    exact ⟨times j, j, hj, by rw [← he]⟩

theorem expire_routerStateAt (hosts : List String) (dur : Nat) (times : Nat → Nat)
    (i : Nat) (now : Nat) (h : ∀ j, j < i → now - times j < dur) :
    expireHosts (routerStateAt hosts dur times i) now = routerStateAt hosts dur times i := by
  simp only [expireHosts, routerStateAt]
  congr 1
  rw [List.filter_eq_self]
  intro p hp
  simp only [marksUpTo, List.mem_map, List.mem_range] at hp
  obtain ⟨j, hj, he⟩ := hp
  have : p.2 = times j := by rw [← he]
  rw [this]
  simpa using h j hj

theorem select_at_routerState (hosts : List String) (dur : Nat) (times : Nat → Nat)
    (i : Nat) (hnd : hosts.Nodup) (hi : i < hosts.length)
    (htimes : ∀ j, j ≤ i → times i - times j < dur) :
    get_available_host (routerStateAt hosts dur times i) (times i) =
      (.ok (hosts.getD i ""), routerStateAt hosts dur times i) := by
  have hexp := expire_routerStateAt hosts dur times i (times i)
    (fun j hj => htimes j (Nat.le_of_lt hj))
  have hfind : (routerStateAt hosts dur times i).hosts.find?
      (fun h => !containsKey (routerStateAt hosts dur times i).unavailable h) =
      some (hosts.getD i "") := by
    show hosts.find? (fun h => !containsKey (marksUpTo hosts times i) h) =
      some (hosts.getD i "")
    have hdec := list_decomp "" hosts i hi
    have hfind0 : List.find? (fun h => !containsKey (marksUpTo hosts times i) h)
        (hosts.take i ++ hosts.getD i "" :: hosts.drop (i + 1)) =
        some (hosts.getD i "") := by
      apply find?_first
      · intro y hy
        obtain ⟨j, hj1, hj2, hj3⟩ := mem_take_index "" hosts i y hy
        have : containsKey (marksUpTo hosts times i) y = true :=
          (containsKey_marksUpTo hosts times i y).mpr ⟨j, hj1, hj3⟩
        simp [this]
      · have : containsKey (marksUpTo hosts times i) (hosts.getD i "") = false := by
          cases hc : containsKey (marksUpTo hosts times i) (hosts.getD i "") with
          | false => rfl
          | true =>
            obtain ⟨j, hj, he⟩ := (containsKey_marksUpTo hosts times i _).mp hc
            exact absurd he.symm
              (nodup_getD_ne "" hosts hnd j i (Nat.lt_trans hj hi) hi (by omega))
        show (!containsKey (marksUpTo hosts times i) (hosts.getD i "")) = true
        rw [this]
        rfl
    exact (congrArg
      (fun l => List.find? (fun h => !containsKey (marksUpTo hosts times i) h) l)
      hdec).trans hfind0
  simp only [get_available_host, hexp, hfind]

theorem containsKey_marksUpTo_self (hosts : List String) (times : Nat → Nat) (i : Nat)
    (hnd : hosts.Nodup) (hi : i < hosts.length) :
    containsKey (marksUpTo hosts times i) (hosts.getD i "") = false := by
  cases hc : containsKey (marksUpTo hosts times i) (hosts.getD i "") with
  | false => rfl
  | true =>
    obtain ⟨j, hj, he⟩ := (containsKey_marksUpTo hosts times i _).mp hc
    exact absurd he.symm
      (nodup_getD_ne "" hosts hnd j i (Nat.lt_trans hj hi) hi (by omega))

theorem mark_routerStateAt (hosts : List String) (dur : Nat) (times : Nat → Nat) (i : Nat)
    (hnd : hosts.Nodup) (hi : i < hosts.length) :
    mark_host_unavailable (routerStateAt hosts dur times i) (hosts.getD i "") (times i) =
      routerStateAt hosts dur times (i + 1) := by
  simp only [mark_host_unavailable, routerStateAt, insertAssoc,
    containsKey_marksUpTo_self hosts times i hnd hi, if_false, Bool.false_eq_true]
  rw [marksUpTo_succ]

theorem drop_decomp {α : Type} (d : α) :
    ∀ (l : List α) (i : Nat), i < l.length → l.drop i = l.getD i d :: l.drop (i + 1) := by
  intro l
  induction l with
  | nil => intro i h; simp at h
  | cons x xs ih =>
    intro i h
    cases i with
    | zero => simp [List.getD]
    | succ i' =>
      simp only [List.drop_succ_cons, List.getD_cons_succ]
      exact ih i' (by simpa using h)

theorem attemptLoop_all_fail (classify : WireResult → AttemptResult)
    (request : String → String × Option String) (env : Nat → WireResult)
    (times : Nat → Nat) (hosts : List String) (dur : Nat)
    (errs : Nat → ImageAnalysisError) (hnd : hosts.Nodup)
    (htimes : ∀ i, i < hosts.length → ∀ j, j ≤ i → times i - times j < dur) :
    ∀ (fuel i : Nat) (le : Option ImageAnalysisError)
      (reqs : List (String × Option String)),
      i + fuel = hosts.length →
      (∀ j, i ≤ j → j < hosts.length → classify (env j) = .failure (errs j)) →
      attemptLoop classify request mark_host_unavailable env times fuel i
        (routerStateAt hosts dur times i) le reqs =
        ((match fuel, le with
          | 0, le => .error (le.getD .allHostsUnavailable)
          | _ + 1, _ => .error (errs (hosts.length - 1))),
         routerStateAt hosts dur times hosts.length,
         reqs ++ (hosts.drop i).map request) := by
  intro fuel
  induction fuel with
  | zero =>
    intro i le reqs hin hall
    have hi : i = hosts.length := by omega
    subst hi
    simp [attemptLoop, List.drop_length]
  | succ fuel ih =>
    intro i le reqs hin hall
    have hi : i < hosts.length := by omega
    rw [attemptLoop]
    simp only [select_at_routerState hosts dur times i hnd hi (htimes i hi),
      hall i (Nat.le_refl i) hi]
    rw [mark_routerStateAt hosts dur times i hnd hi]
    rw [ih (i + 1) (some (errs i)) (reqs ++ [request (hosts.getD i "")]) (by omega)
      (fun j hj1 hj2 => hall j (by omega) hj2)]
    have hreq : (reqs ++ [request (hosts.getD i "")]) ++ (hosts.drop (i + 1)).map request =
        reqs ++ (hosts.drop i).map request := by
      rw [drop_decomp "" hosts i hi]
      simp
    rw [hreq]
    cases fuel with
    | zero =>
      have : i = hosts.length - 1 := by omega
      subst this
      rfl
    | succ fuel' => rfl

theorem attemptLoop_first_success (classify : WireResult → AttemptResult)
    (request : String → String × Option String) (env : Nat → WireResult)
    (times : Nat → Nat) (hosts : List String) (dur : Nat)
    (errs : Nat → ImageAnalysisError) (hnd : hosts.Nodup)
    (htimes : ∀ i, i < hosts.length → ∀ j, j ≤ i → times i - times j < dur) :
    ∀ (fuel i : Nat) (le : Option ImageAnalysisError)
      (reqs : List (String × Option String)) (m : Nat) (d : String),
      i + fuel = hosts.length → i ≤ m → m < hosts.length →
      (∀ j, i ≤ j → j < m → classify (env j) = .failure (errs j)) →
      classify (env m) = .success d →
      attemptLoop classify request mark_host_unavailable env times fuel i
        (routerStateAt hosts dur times i) le reqs =
        (.ok d, routerStateAt hosts dur times m,
         reqs ++ ((hosts.drop i).take (m - i + 1)).map request) := by
  intro fuel
  induction fuel with
  | zero => intro i le reqs m d hin him hm _ _; omega
  | succ fuel ih =>
    intro i le reqs m d hin him hm hfail hsucc
    have hi : i < hosts.length := by omega
    rw [attemptLoop]
    rcases Nat.eq_or_lt_of_le him with heq | hlt
    · subst heq
      simp only [select_at_routerState hosts dur times i hnd hi (htimes i hi), hsucc]
      rw [drop_decomp "" hosts i hi]
      simp
    · simp only [select_at_routerState hosts dur times i hnd hi (htimes i hi),
        hfail i (Nat.le_refl i) hlt]
      rw [mark_routerStateAt hosts dur times i hnd hi]
      rw [ih (i + 1) (some (errs i)) (reqs ++ [request (hosts.getD i "")]) m d (by omega)
        (by omega) hm (fun j hj1 hj2 => hfail j (by omega) hj2) hsucc]
      rw [drop_decomp "" hosts i hi]
      have harith : m - (i + 1) + 1 = m - i := by omega
      rw [harith]
      have harith2 : m - i = (m - i - 1) + 1 := by omega
      rw [harith2, List.take_succ_cons]
      have harith3 : m - i - 1 = m - (i + 1) := by omega
      rw [harith3]
      simp

theorem attemptLoop_first_abort (classify : WireResult → AttemptResult)
    (request : String → String × Option String) (env : Nat → WireResult)
    (times : Nat → Nat) (hosts : List String) (dur : Nat)
    (errs : Nat → ImageAnalysisError) (hnd : hosts.Nodup)
    (htimes : ∀ i, i < hosts.length → ∀ j, j ≤ i → times i - times j < dur) :
    ∀ (fuel i : Nat) (le : Option ImageAnalysisError)
      (reqs : List (String × Option String)) (m : Nat) (e : ImageAnalysisError),
      i + fuel = hosts.length → i ≤ m → m < hosts.length →
      (∀ j, i ≤ j → j < m → classify (env j) = .failure (errs j)) →
      classify (env m) = .abort e →
      attemptLoop classify request mark_host_unavailable env times fuel i
        (routerStateAt hosts dur times i) le reqs =
        (.error e, routerStateAt hosts dur times m,
         reqs ++ ((hosts.drop i).take (m - i + 1)).map request) := by
  intro fuel
  induction fuel with
  | zero => intro i le reqs m e hin him hm _ _; omega
  | succ fuel ih =>
    intro i le reqs m e hin him hm hfail habort
    have hi : i < hosts.length := by omega
    rw [attemptLoop]
    rcases Nat.eq_or_lt_of_le him with heq | hlt
    · subst heq
      simp only [select_at_routerState hosts dur times i hnd hi (htimes i hi), habort]
      rw [drop_decomp "" hosts i hi]
      simp
    · simp only [select_at_routerState hosts dur times i hnd hi (htimes i hi),
        hfail i (Nat.le_refl i) hlt]
      rw [mark_routerStateAt hosts dur times i hnd hi]
      rw [ih (i + 1) (some (errs i)) (reqs ++ [request (hosts.getD i "")]) m e (by omega)
        (by omega) hm (fun j hj1 hj2 => hfail j (by omega) hj2) habort]
      rw [drop_decomp "" hosts i hi]
      have harith : m - (i + 1) + 1 = m - i := by omega
      rw [harith]
      have harith2 : m - i = (m - i - 1) + 1 := by omega
      rw [harith2, List.take_succ_cons]
      have harith3 : m - i - 1 = m - (i + 1) := by omega
      rw [harith3]
      simp

theorem routerStateAt_zero (hosts : List String) (dur : Nat) (times : Nat → Nat) :
    routerStateAt hosts dur times 0 = HostManager.new hosts dur := rfl

/-- C4 (amended): for a valid file, `ollama::analyze_image` performs
at most `|hostPool|` attempts: an empty pool yields
`AllHostsUnavailable` with no attempt; if every attempt fails, each
attempt's error is recorded as the running last error and its host
marked (final state: all hosts marked), and the outcome is the last
error; a first success at attempt `m` yields the description with
hosts `0..m-1` marked; a body-read failure at attempt `m` aborts at
once with `ProcessingError`, leaving attempt `m`'s host unmarked. -/
theorem analyze_image_retry_amended (hosts : List String) (dur : Nat) (filename : String)
    (file : FileInput) (env : Nat → WireResult) (times : Nat → Nat)
    (errs : Nat → ImageAnalysisError) (assetId : String) (len : Nat)
    (hok : extract_uuid_from_preview_filename filename = .ok assetId)
    (hlen : file.metadataLen = .ok len) (hne : len ≠ 0) (hread : file.readData = .ok ())
    (hnd : hosts.Nodup)
    (htimes : ∀ i, i < hosts.length → ∀ j, j ≤ i → times i - times j < dur) :
    (hosts = [] →
      ollama_analyze_image filename file (HostManager.new hosts dur) env times =
        (.error .allHostsUnavailable, HostManager.new hosts dur, [])) ∧
    ((∀ j, j < hosts.length → classifyOllama filename (env j) = .failure (errs j)) →
      hosts ≠ [] →
      ollama_analyze_image filename file (HostManager.new hosts dur) env times =
        (.error (errs (hosts.length - 1)), routerStateAt hosts dur times hosts.length,
         hosts.map ollamaRequest)) ∧
    (∀ m d, m < hosts.length →
      (∀ j, j < m → classifyOllama filename (env j) = .failure (errs j)) →
      classifyOllama filename (env m) = .success d →
      ollama_analyze_image filename file (HostManager.new hosts dur) env times =
        (.ok (d, assetId), routerStateAt hosts dur times m,
         (hosts.take (m + 1)).map ollamaRequest)) ∧
    (∀ m e, m < hosts.length →
      (∀ j, j < m → classifyOllama filename (env j) = .failure (errs j)) →
      classifyOllama filename (env m) = .abort e →
      ollama_analyze_image filename file (HostManager.new hosts dur) env times =
        (.error e, routerStateAt hosts dur times m,
         (hosts.take (m + 1)).map ollamaRequest)) := by
  refine ⟨?_, ?_, ?_, ?_⟩
  · intro hnil
    subst hnil
    simp [ollama_analyze_image, hok, hlen, hread, hne, HostManager.new, attemptLoop]
  · intro hall hnz
    have hloop := attemptLoop_all_fail (classifyOllama filename) ollamaRequest env times
      hosts dur errs hnd htimes hosts.length 0 none [] (by omega)
      (fun j _ hj2 => hall j hj2)
    rw [routerStateAt_zero] at hloop
    simp only [ollama_analyze_image, hok, hlen, hread]
    rw [if_neg hne]
    have hlen' : (HostManager.new hosts dur).hosts.length = hosts.length := rfl
    rw [hlen', hloop]
    cases hl : hosts with
    | nil => exact absurd hl hnz
    | cons x xs => simp [hl]
  · intro m d hm hfail hsucc
    have hloop := attemptLoop_first_success (classifyOllama filename) ollamaRequest env
      times hosts dur errs hnd htimes hosts.length 0 none [] m d (by omega) (by omega)
      hm (fun j _ hj2 => hfail j hj2) hsucc
    rw [routerStateAt_zero] at hloop
    simp only [ollama_analyze_image, hok, hlen, hread]
    rw [if_neg hne]
    have hlen' : (HostManager.new hosts dur).hosts.length = hosts.length := rfl
    rw [hlen', hloop]
    simp
  · intro m e hm hfail habort
    have hloop := attemptLoop_first_abort (classifyOllama filename) ollamaRequest env
      times hosts dur errs hnd htimes hosts.length 0 none [] m e (by omega) (by omega)
      hm (fun j _ hj2 => hfail j hj2) habort
    rw [routerStateAt_zero] at hloop
    simp only [ollama_analyze_image, hok, hlen, hread]
    rw [if_neg hne]
    have hlen' : (HostManager.new hosts dur).hosts.length = hosts.length := rfl
    rw [hlen', hloop]
    simp

/-- C4 counterexample: an attempt whose success-status response body
fails to read aborts the whole run with `ProcessingError` — the error
is not recorded as the running last error and the host is NOT marked
unavailable (the returned manager still has an empty map),
contradicting the claim that every failed attempt records its error
and marks its host. -/
theorem body_read_failure_skips_marking :
    ollama_analyze_image "aaaaaaaa-aaaa-4aaa-8aaa-aaaaaaaaaaaa-preview.jpg"
      ⟨.ok 5, .ok ()⟩ (HostManager.new ["http://h1"] 60)
      (fun _ => .response 200 (.error "boom")) (fun _ => 0) =
    (.error (.processingError "aaaaaaaa-aaaa-4aaa-8aaa-aaaaaaaaaaaa-preview.jpg" "boom"),
     HostManager.new ["http://h1"] 60, [("http://h1/api/chat", none)]) := rfl

theorem analyze_image_retry_amended_witness :
    ollama_analyze_image "aaaaaaaa-aaaa-4aaa-8aaa-aaaaaaaaaaaa-preview.jpg"
      ⟨.ok 5, .ok ()⟩ (HostManager.new ["http://h1", "http://h2", "http://h3"] 60)
      (fun j => if j < 2 then .response 500 (.ok ("err", none))
        else .response 200 (.ok ("", some (.obj [("message",
          .obj [("content", .str "desc")])]))))
      (fun _ => 0) =
    (.ok ("desc", "aaaaaaaa-aaaa-4aaa-8aaa-aaaaaaaaaaaa"),
     routerStateAt ["http://h1", "http://h2", "http://h3"] 60 (fun _ => 0) 2,
     (["http://h1", "http://h2", "http://h3"].take (2 + 1)).map ollamaRequest) :=
  (analyze_image_retry_amended ["http://h1", "http://h2", "http://h3"] 60
    "aaaaaaaa-aaaa-4aaa-8aaa-aaaaaaaaaaaa-preview.jpg" ⟨.ok 5, .ok ()⟩
    (fun j => if j < 2 then .response 500 (.ok ("err", none))
      else .response 200 (.ok ("", some (.obj [("message",
        .obj [("content", .str "desc")])]))))
    (fun _ => 0) (fun _ => .httpError 500 "aaaaaaaa-aaaa-4aaa-8aaa-aaaaaaaaaaaa-preview.jpg" "err")
    "aaaaaaaa-aaaa-4aaa-8aaa-aaaaaaaaaaaa" 5 rfl rfl (by decide) rfl (by decide)
    (by decide)).2.2.1 2 "desc" (by decide) (by decide) (by rfl)

/-- C10: both backends check that the file is readable and non-empty
before any host selection, network attempt or unavailability marking:
on a metadata error, a zero length, or a read error, the result is
the corresponding `ProcessingError`/`EmptyFile`, the router state is
returned unchanged, and no request is issued — for every environment,
so zero retry attempts have run. -/
theorem pre_network_validation (filename : String) (file : FileInput) (hm : HostManager)
    (apiKey : Option String) (env : Nat → WireResult) (times : Nat → Nat)
    (assetId : String)
    (hok : extract_uuid_from_preview_filename filename = .ok assetId) :
    (∀ msg, file.metadataLen = .error msg →
      ollama_analyze_image filename file hm env times =
        (.error (.processingError filename msg), hm, []) ∧
      llamacpp_analyze_image filename apiKey file hm env times =
        (.error (.processingError filename msg), hm, [])) ∧
    (file.metadataLen = .ok 0 →
      ollama_analyze_image filename file hm env times =
        (.error (.emptyFile filename), hm, []) ∧
      llamacpp_analyze_image filename apiKey file hm env times =
        (.error (.emptyFile filename), hm, [])) ∧
    (∀ len msg, file.metadataLen = .ok len → file.readData = .error msg → len ≠ 0 →
      ollama_analyze_image filename file hm env times =
        (.error (.processingError filename msg), hm, []) ∧
      llamacpp_analyze_image filename apiKey file hm env times =
        (.error (.processingError filename msg), hm, [])) := by
  refine ⟨?_, ?_, ?_⟩
  · intro msg hmeta
    constructor <;> simp [ollama_analyze_image, llamacpp_analyze_image, hok, hmeta]
  · intro hmeta
    constructor <;> simp [ollama_analyze_image, llamacpp_analyze_image, hok, hmeta]
  · intro len msg hmeta hread hne
    constructor <;>
      simp [ollama_analyze_image, llamacpp_analyze_image, hok, hmeta, hread, hne]

theorem pre_network_validation_witness :
    ollama_analyze_image "aaaaaaaa-aaaa-4aaa-8aaa-aaaaaaaaaaaa-preview.jpg"
      ⟨.ok 0, .ok ()⟩ (HostManager.new ["http://h1"] 60)
      (fun _ => .timeout) (fun _ => 0) =
      (.error (.emptyFile "aaaaaaaa-aaaa-4aaa-8aaa-aaaaaaaaaaaa-preview.jpg"),
       HostManager.new ["http://h1"] 60, []) ∧
    llamacpp_analyze_image "aaaaaaaa-aaaa-4aaa-8aaa-aaaaaaaaaaaa-preview.jpg"
      (some "key") ⟨.ok 0, .ok ()⟩ (HostManager.new ["http://h1"] 60)
      (fun _ => .timeout) (fun _ => 0) =
      (.error (.emptyFile "aaaaaaaa-aaaa-4aaa-8aaa-aaaaaaaaaaaa-preview.jpg"),
       HostManager.new ["http://h1"] 60, []) :=
  (pre_network_validation "aaaaaaaa-aaaa-4aaa-8aaa-aaaaaaaaaaaa-preview.jpg"
    ⟨.ok 0, .ok ()⟩ (HostManager.new ["http://h1"] 60) (some "key")
    (fun _ => .timeout) (fun _ => 0) "aaaaaaaa-aaaa-4aaa-8aaa-aaaaaaaaaaaa"
    rfl).2.1 rfl

/-- C5 (amended): on an HTTP-success body both backends first try the
strict structured parse and, on strict-parse failure, the loose
field-walking fallback, accepting only non-empty trimmed text (no
success ever carries empty text).  When the STRICT parse succeeds but
the content is empty (or llama.cpp's `choices` is empty) the recorded
failure is `EmptyResponse`; when the strict parse fails and the
fallback also yields no non-empty text, the recorded failure is
`JsonParsing`, not `EmptyResponse`. -/
theorem response_parsing_amended (filename : String) (j : Json) :
    (∀ content, ollamaStrictContent j = some content →
      ((rustTrim content).isEmpty = false →
        ollamaHandleBody filename (some j) = .success (rustTrim content)) ∧
      ((rustTrim content).isEmpty = true →
        ollamaHandleBody filename (some j) = .failure (.emptyResponse filename))) ∧
    (ollamaStrictContent j = none →
      (∀ content, ollamaFallbackContent j = some content →
        (rustTrim content).isEmpty = false →
        ollamaHandleBody filename (some j) = .success (rustTrim content)) ∧
      ((∀ content, ollamaFallbackContent j = some content →
          (rustTrim content).isEmpty = true) →
        ollamaHandleBody filename (some j) =
          .failure (.jsonParsing filename "parse error"))) ∧
    (∀ d, ollamaHandleBody filename (some j) = .success d → d.isEmpty = false) ∧
    (∀ contents content, llamacppStrictContents j = some contents →
      contents.head? = some content →
      ((rustTrim content).isEmpty = false →
        llamacppHandleBody filename (some j) = .success (rustTrim content)) ∧
      ((rustTrim content).isEmpty = true →
        llamacppHandleBody filename (some j) = .failure (.emptyResponse filename))) ∧
    (llamacppStrictContents j = some [] →
      llamacppHandleBody filename (some j) = .failure (.emptyResponse filename)) ∧
    (llamacppStrictContents j = none →
      (∀ content, llamacppFallbackContent j = some content →
        (rustTrim content).isEmpty = false →
        llamacppHandleBody filename (some j) = .success (rustTrim content)) ∧
      ((∀ content, llamacppFallbackContent j = some content →
          (rustTrim content).isEmpty = true) →
        llamacppHandleBody filename (some j) =
          .failure (.jsonParsing filename "parse error"))) ∧
    (∀ d, llamacppHandleBody filename (some j) = .success d → d.isEmpty = false) := by
  refine ⟨?_, ?_, ?_, ?_, ?_, ?_, ?_⟩
  · intro content hs
    constructor <;> intro he <;> simp [ollamaHandleBody, hs, he]
  · intro hs
    constructor
    · intro content hf he
      simp [ollamaHandleBody, hs, hf, he]
    · intro hall
      cases hf : ollamaFallbackContent j with
      | none => simp [ollamaHandleBody, hs, hf]
      | some content => simp [ollamaHandleBody, hs, hf, hall content hf]
  · intro d h
    simp only [ollamaHandleBody] at h
    cases hs : ollamaStrictContent j with
    | some content =>
      simp only [hs] at h
      by_cases he : (rustTrim content).isEmpty
      · simp [he] at h
      · simp only [he, Bool.false_eq_true, if_false] at h
        cases h
        simpa using he
    | none =>
      simp only [hs] at h
      cases hf : ollamaFallbackContent j with
      | none => simp only [hf] at h; cases h
      | some content =>
        simp only [hf] at h
        by_cases he : (rustTrim content).isEmpty
        · simp [he] at h
        · simp only [he, Bool.not_false, if_true] at h
          cases h
          simpa using he
  · intro contents content hs hh
    constructor <;> intro he <;> simp [llamacppHandleBody, hs, hh, he]
  · intro hs
    simp [llamacppHandleBody, hs]
  · intro hs
    constructor
    · intro content hf he
      simp [llamacppHandleBody, hs, hf, he]
    · intro hall
      cases hf : llamacppFallbackContent j with
      | none => simp [llamacppHandleBody, hs, hf]
      | some content => simp [llamacppHandleBody, hs, hf, hall content hf]
  · intro d h
    simp only [llamacppHandleBody] at h
    cases hs : llamacppStrictContents j with
    | some contents =>
      simp only [hs] at h
      cases hh : contents.head? with
      | none => simp only [hh] at h; cases h
      | some content =>
        simp only [hh] at h
        by_cases he : (rustTrim content).isEmpty
        · simp [he] at h
        · simp only [he, Bool.false_eq_true, if_false] at h
          cases h
          simpa using he
    | none =>
      simp only [hs] at h
      cases hf : llamacppFallbackContent j with
      | none => simp only [hf] at h; cases h
      | some content =>
        simp only [hf] at h
        by_cases he : (rustTrim content).isEmpty
        · simp [he] at h
        · simp only [he, Bool.not_false, if_true] at h
          cases h
          simpa using he

/-- C5 counterexample: for the valid-JSON body with an object
`message` field lacking `content` (braces elided), both parse
attempts leave the content missing, yet the recorded failure is
`JsonParsing`, not `EmptyResponse` as the claim states. -/
theorem fallback_miss_yields_json_parsing :
    ollamaStrictContent (Json.obj [("message", Json.obj [])]) = none ∧
    ollamaFallbackContent (Json.obj [("message", Json.obj [])]) = none ∧
    ollamaHandleBody "f.jpg" (some (Json.obj [("message", Json.obj [])])) =
      .failure (.jsonParsing "f.jpg" "parse error") ∧
    ollamaHandleBody "f.jpg" (some (Json.obj [("message", Json.obj [])])) ≠
      .failure (.emptyResponse "f.jpg") :=
  ⟨rfl, rfl, rfl, by decide⟩

theorem response_parsing_amended_witness :
    ollamaHandleBody "f.jpg" (some (Json.obj [("message",
        Json.obj [("content", Json.str " hi ")])])) = .success (rustTrim " hi ") :=
  ((response_parsing_amended "f.jpg" (Json.obj [("message",
      Json.obj [("content", Json.str " hi ")])])).1 " hi " rfl).1 (by rfl)

theorem get_available_host_fresh (dur t : Nat) (h : String) (rest : List String) :
    get_available_host (HostManager.new (h :: rest) dur) t =
      (.ok h, HostManager.new (h :: rest) dur) := by
  simp [get_available_host, expireHosts, HostManager.new, containsKey, List.find?_cons]

theorem attemptLoop_reqs_extend (classify : WireResult → AttemptResult)
    (request : String → String × Option String)
    (markStep : HostManager → String → Nat → HostManager)
    (env : Nat → WireResult) (times : Nat → Nat) :
    ∀ (fuel i : Nat) (mgr : HostManager) (le : Option ImageAnalysisError)
      (reqs : List (String × Option String)),
      ∃ tail, (attemptLoop classify request markStep env times fuel i mgr le reqs).2.2 =
        reqs ++ tail := by
  intro fuel
  induction fuel with
  | zero => intro i mgr le reqs; exact ⟨[], by simp [attemptLoop]⟩
  | succ fuel ih =>
    intro i mgr le reqs
    rw [attemptLoop]
    cases hg : get_available_host mgr (times i) with
    | mk r mgr' =>
      cases r with
      | error e => exact ⟨[], by simp⟩
      | ok host =>
        cases hc : classify (env i) with
        | success d => exact ⟨[request host], by simp⟩
        | abort e => exact ⟨[request host], by simp⟩
        | failure e =>
          obtain ⟨tail, ht⟩ := ih (i + 1) (markStep mgr' host (times i)) (some e)
            (reqs ++ [request host])
          exact ⟨request host :: tail, by simp only [ht, List.append_assoc]; rfl⟩

theorem attemptLoop_reqs_head (classify : WireResult → AttemptResult)
    (request : String → String × Option String)
    (markStep : HostManager → String → Nat → HostManager)
    (env : Nat → WireResult) (times : Nat → Nat)
    (fuel i : Nat) (mgr : HostManager) (le : Option ImageAnalysisError)
    (r0 : String × Option String) (rs : List (String × Option String)) :
    (attemptLoop classify request markStep env times fuel i mgr le
      (r0 :: rs)).2.2.head? = some r0 := by
  obtain ⟨tail, ht⟩ := attemptLoop_reqs_extend classify request markStep env times
    fuel i mgr le (r0 :: rs)
  rw [ht]
  rfl

theorem analyze_first_request_ollama (dur : Nat) (filename : String) (file : FileInput)
    (env : Nat → WireResult) (times : Nat → Nat) (h : String) (rest : List String)
    (assetId : String) (len : Nat)
    (hok : extract_uuid_from_preview_filename filename = .ok assetId)
    (hlen : file.metadataLen = .ok len) (hne : len ≠ 0)
    (hread : file.readData = .ok ()) :
    (ollama_analyze_image filename file (HostManager.new (h :: rest) dur)
        env times).2.2.head? = some (ollamaRequest h) := by
  simp only [ollama_analyze_image, hok, hlen, hread]
  rw [if_neg hne]
  have hfuel : (HostManager.new (h :: rest) dur).hosts.length = rest.length + 1 := rfl
  rw [hfuel, attemptLoop, get_available_host_fresh]
  cases hc : classifyOllama filename (env 0) with
  | success d => simp
  | abort e => simp
  | failure e =>
    simp only [List.nil_append]
    have hh2 := attemptLoop_reqs_head (classifyOllama filename) ollamaRequest
      mark_host_unavailable env times rest.length 1
      (mark_host_unavailable (HostManager.new (h :: rest) dur) h (times 0)) (some e)
      (ollamaRequest h) []
    split <;> rename_i x mgr2 reqs2 heq <;> rw [heq] at hh2 <;> simpa using hh2

theorem analyze_first_request_llamacpp (apiKey : Option String) (dur : Nat)
    (filename : String) (file : FileInput)
    (env : Nat → WireResult) (times : Nat → Nat) (h : String) (rest : List String)
    (assetId : String) (len : Nat)
    (hok : extract_uuid_from_preview_filename filename = .ok assetId)
    (hlen : file.metadataLen = .ok len) (hne : len ≠ 0)
    (hread : file.readData = .ok ()) :
    (llamacpp_analyze_image filename apiKey file (HostManager.new (h :: rest) dur)
        env times).2.2.head? = some (llamacppRequest apiKey h) := by
  simp only [llamacpp_analyze_image, hok, hlen, hread]
  rw [if_neg hne]
  have hfuel : (HostManager.new (h :: rest) dur).hosts.length = rest.length + 1 := rfl
  rw [hfuel, attemptLoop, get_available_host_fresh]
  cases hc : classifyLlamacpp filename (env 0) with
  | success d => simp
  | abort e => simp
  | failure e =>
    simp only [List.nil_append]
    have hh2 := attemptLoop_reqs_head (classifyLlamacpp filename)
      (llamacppRequest apiKey) markHostTwice env times rest.length 1
      (markHostTwice (HostManager.new (h :: rest) dur) h (times 0)) (some e)
      (llamacppRequest apiKey h) []
    split <;> rename_i x mgr2 reqs2 heq <;> rw [heq] at hh2 <;> simpa using hh2

/-- C2 (amended): each `process_file` invocation constructs a fresh
host manager whose unavailability map starts empty, so marks are
shared only among the attempts of that one run: whatever happened in
earlier runs, the first request of a run always targets the first
pool host of the configured variant. -/
theorem process_file_fresh_router_amended (interface : Interface) (hosts : List String)
    (apiKey : Option String) (dur : Nat) (filename : String) (file : FileInput)
    (env : Nat → WireResult) (times : Nat → Nat) (h : String) (rest : List String)
    (assetId : String) (len : Nat)
    (hh : hosts = h :: rest)
    (hok : extract_uuid_from_preview_filename filename = .ok assetId)
    (hlen : file.metadataLen = .ok len) (hne : len ≠ 0)
    (hread : file.readData = .ok ()) :
    (process_file interface hosts apiKey dur filename file env times).2.1.head? =
      some (match interface with
            | .ollama => ollamaRequest h
            | .llamacpp => llamacppRequest apiKey h) := by
  subst hh
  cases interface with
  | ollama =>
    simp only [process_file, hok]
    have hfst := analyze_first_request_ollama dur filename file env times h rest
      assetId len hok hlen hne hread
    split
    · rename_i d aid mgr2 reqs2 heq
      rw [heq] at hfst
      simpa using hfst
    · rename_i e2 mgr2 reqs2 heq
      rw [heq] at hfst
      simpa using hfst
  | llamacpp =>
    simp only [process_file, hok]
    have hfst := analyze_first_request_llamacpp apiKey dur filename file env times h
      rest assetId len hok hlen hne hread
    split
    · rename_i d aid mgr2 reqs2 heq
      rw [heq] at hfst
      simpa using hfst
    · rename_i e2 mgr2 reqs2 heq
      rw [heq] at hfst
      simpa using hfst

/-- C2 counterexample: during a first run the failing host `h1` is
marked in that run's map, yet a `process_file` invocation started
later (well inside the unavailability window) sends its FIRST request
to `h1` again — host selection in the new run does not see the mark,
because each `process_file` constructs a fresh manager. -/
theorem host_map_not_shared_across_runs :
    (ollama_analyze_image "aaaaaaaa-aaaa-4aaa-8aaa-aaaaaaaaaaaa-preview.jpg"
        ⟨.ok 5, .ok ()⟩ (HostManager.new ["http://h1", "http://h2"] 1000)
        (fun j => if j = 0 then .response 500 (.ok ("err", none))
          else .response 200 (.ok ("", some (.obj [("message",
            .obj [("content", .str "desc")])]))))
        (fun _ => 0)).2.1.unavailable = [("http://h1", 0)] ∧
    (process_file .ollama ["http://h1", "http://h2"] none 1000
        "bbbbbbbb-bbbb-4bbb-8bbb-bbbbbbbbbbbb-preview.jpg" ⟨.ok 5, .ok ()⟩
        (fun _ => .timeout) (fun _ => 100)).2.1.head? =
      some ("http://h1/api/chat", none) ∧
    some (("http://h1/api/chat", none)) ≠
      some (("http://h2/api/chat", (none : Option String))) :=
  ⟨rfl, rfl, by decide⟩

theorem process_file_fresh_router_amended_witness :
    (process_file .ollama ["http://h1", "http://h2"] none 1000
        "bbbbbbbb-bbbb-4bbb-8bbb-bbbbbbbbbbbb-preview.jpg" ⟨.ok 5, .ok ()⟩
        (fun _ => .timeout) (fun _ => 100)).2.1.head? =
      some (ollamaRequest "http://h1") :=
  process_file_fresh_router_amended .ollama ["http://h1", "http://h2"] none 1000
    "bbbbbbbb-bbbb-4bbb-8bbb-bbbbbbbbbbbb-preview.jpg" ⟨.ok 5, .ok ()⟩
    (fun _ => .timeout) (fun _ => 100) "http://h1" ["http://h2"]
    "bbbbbbbb-bbbb-4bbb-8bbb-bbbbbbbbbbbb" 5 rfl rfl rfl (by decide) rfl

/-- C6: monitor mode does not dispatch on the configured interface:
with `interface = llamacpp` and an API key set, the monitor's
pipeline still sends its request to the Ollama endpoint `/api/chat`
with no bearer credential (`process_new_file` hardcodes
`OllamaHostManager` and `ollama::analyze_image`, ignoring
`MonitorConfig.interface` and `api_key`). -/
theorem monitor_ignores_configured_interface :
    (monitor_process_new_file
        ⟨30, 1, 2, 300, "en", false, ["http://h"], .llamacpp, some "key", 60⟩
        "aaaaaaaa-aaaa-4aaa-8aaa-aaaaaaaaaaaa-preview.jpg" (fun _ => some 5)
        (fun _ => false) ⟨.ok 5, .ok ()⟩ (fun _ => .timeout) (fun _ => 0)).2.1 =
      [("http://h/api/chat", none)] ∧
    (⟨30, 1, 2, 300, "en", false, ["http://h"], .llamacpp, some "key", 60⟩ :
        MonitorConfig).interface = .llamacpp ∧
    ("http://h/api/chat", (none : Option String)) ≠
      llamacppRequest (some "key") "http://h" :=
  ⟨rfl, rfl, by decide⟩

theorem monStep_fsEvent_inFlight (cooldown : Nat) (s : MonState) (kind : EvKind)
    (isFile : Bool) (nm : String) (t : Nat) :
    ((monStep cooldown s (.fsEvent kind isFile nm t)).2 = none ∧
     (monStep cooldown s (.fsEvent kind isFile nm t)).1.inFlight = s.inFlight) ∨
    ((monStep cooldown s (.fsEvent kind isFile nm t)).2 = some nm ∧
     (monStep cooldown s (.fsEvent kind isFile nm t)).1.inFlight = nm :: s.inFlight ∧
     nm ∉ s.inFlight) := by
  by_cases hq : qualifiesEvent kind isFile nm = true
  · cases hl : lookupAssoc s.lastEvents nm with
    | some last =>
      by_cases hcd : t - last < cooldown
      · left
        constructor <;> simp [monStep, hq, hl, hcd]
      · by_cases hin : nm ∈ s.inFlight
        · left
          constructor <;> simp [monStep, hq, hl, hcd, admitEvent, hin]
        · right
          refine ⟨?_, ?_, hin⟩ <;> simp [monStep, hq, hl, hcd, admitEvent, hin]
    | none =>
      by_cases hin : nm ∈ s.inFlight
      · left
        constructor <;> simp [monStep, hq, hl, admitEvent, hin]
      · right
        refine ⟨?_, ?_, hin⟩ <;> simp [monStep, hq, hl, admitEvent, hin]
  · left
    constructor <;> simp [monStep, hq]

theorem validFrom_of_append (cooldown : Nat) :
    ∀ (l1 l2 : List MonAction) (s : MonState),
      validFrom cooldown s (l1 ++ l2) = true → validFrom cooldown s l1 = true := by
  intro l1
  induction l1 with
  | nil => intro l2 s _; rfl
  | cons a rest ih =>
    intro l2 s h
    simp only [List.cons_append, validFrom, Bool.and_eq_true] at h ⊢
    exact ⟨h.1, ih l2 _ h.2⟩

theorem monRun_balance (cooldown : Nat) : ∀ (acts : List MonAction) (s : MonState),
    s.inFlight.Nodup → validFrom cooldown s acts = true →
    (monRun cooldown s acts).1.inFlight.Nodup ∧
    ∀ name, occIn (monRun cooldown s acts).1 name + countCompletes acts name =
      occIn s name + (monRun cooldown s acts).2.count name := by
  intro acts
  induction acts with
  | nil =>
    intro s hnd _
    exact ⟨hnd, fun name => by simp [monRun, countCompletes, occIn]⟩
  | cons a rest ih =>
    intro s hnd hv
    simp only [validFrom, Bool.and_eq_true] at hv
    obtain ⟨hva, hvrest⟩ := hv
    cases a with
    | complete n =>
      have hmem : n ∈ s.inFlight := by simpa using hva
      have hnd' : (s.inFlight.filter (fun x => x ≠ n)).Nodup := hnd.filter _
      have hstate : (monStep cooldown s (.complete n)).1 =
        { s with inFlight := s.inFlight.filter (fun x => x ≠ n) } := rfl
      obtain ⟨ihnd, ihbal⟩ := ih (monStep cooldown s (.complete n)).1
        (by rw [hstate]; exact hnd') hvrest
      constructor
      · simpa [monRun] using ihnd
      · intro name
        have hbal := ihbal name
        simp only [monRun, monStep]
        simp only [monRun, monStep] at hbal
        by_cases he : name = n
        · subst he
          have hocc1 : occIn { s with inFlight := s.inFlight.filter (fun x => x ≠ name) }
              name = 0 := by
            simp [occIn, List.mem_filter]
          have hocc2 : occIn s name = 1 := by simp [occIn, hmem]
          rw [hocc1] at hbal
          rw [hocc2]
          have hcc : countCompletes (MonAction.complete name :: rest) name =
              countCompletes rest name + 1 := by
            simp [countCompletes, List.countP_cons]
          rw [hcc]
          simp only [List.nil_append] at hbal ⊢
          omega
        · have hocc1 : occIn { s with inFlight := s.inFlight.filter (fun x => x ≠ n) }
              name = occIn s name := by
            simp only [occIn, List.mem_filter]
            by_cases hm : name ∈ s.inFlight <;> simp [hm, he]
          rw [hocc1] at hbal
          have hcc : countCompletes (MonAction.complete n :: rest) name =
              countCompletes rest name := by
            simp [countCompletes, List.countP_cons, Ne.symm he]
          rw [hcc]
          simp only [List.nil_append] at hbal ⊢
          omega
    | fsEvent kind isFile nm t =>
      rcases monStep_fsEvent_inFlight cooldown s kind isFile nm t with
        ⟨hd, hif⟩ | ⟨hd, hif, hnotin⟩
      · have hnd2 : (monStep cooldown s (.fsEvent kind isFile nm t)).1.inFlight.Nodup := by
          rw [hif]; exact hnd
        obtain ⟨ihnd, ihbal⟩ := ih _ hnd2 hvrest
        constructor
        · simpa [monRun] using ihnd
        · intro name
          have hbal := ihbal name
          have hocc : occIn (monStep cooldown s (.fsEvent kind isFile nm t)).1 name =
              occIn s name := by
            simp only [occIn, hif]
          rw [hocc] at hbal
          have hcc : countCompletes (MonAction.fsEvent kind isFile nm t :: rest) name =
              countCompletes rest name := by
            simp [countCompletes, List.countP_cons]
          simp only [monRun, hd, hcc]
          simpa using hbal
      · have hnd2 : (monStep cooldown s (.fsEvent kind isFile nm t)).1.inFlight.Nodup := by
          rw [hif]; exact List.nodup_cons.mpr ⟨hnotin, hnd⟩
        obtain ⟨ihnd, ihbal⟩ := ih _ hnd2 hvrest
        constructor
        · simpa [monRun] using ihnd
        · intro name
          have hbal := ihbal name
          have hcc : countCompletes (MonAction.fsEvent kind isFile nm t :: rest) name =
              countCompletes rest name := by
            simp [countCompletes, List.countP_cons]
          by_cases he : name = nm
          · subst he
            have hocc1 : occIn (monStep cooldown s (.fsEvent kind isFile name t)).1 name =
                1 := by
              simp [occIn, hif]
            have hocc2 : occIn s name = 0 := by simp [occIn, hnotin]
            rw [hocc1] at hbal
            rw [hocc2, hcc]
            simp only [monRun, hd]
            simp only [List.singleton_append, List.count_cons, beq_self_eq_true,
              if_true]
            omega
          · have hocc1 : occIn (monStep cooldown s (.fsEvent kind isFile nm t)).1 name =
                occIn s name := by
              simp only [occIn, hif, List.mem_cons]
              by_cases hm : name ∈ s.inFlight <;> simp [hm, he]
            rw [hocc1] at hbal
            rw [hcc]
            simp only [monRun, hd]
            simp only [List.singleton_append, List.count_cons]
            simp only [he, Ne.symm he, if_false, beq_iff_eq]
            omega

/-- C7: over any well-formed action sequence from the initial state,
at every prefix the number of dispatches of a filename exceeds its
completions by at most one, with equality exactly while the filename
is in the in-flight set (insertion immediately before dispatch,
unconditional removal at completion) — so at most one pipeline run
per filename is active at a time; and an event for an in-flight
filename is never dispatched. -/
theorem in_flight_guard_single_run (cooldown : Nat) (acts : List MonAction)
    (name : String) (hvalid : validFrom cooldown monInit acts = true) :
    (∀ l1 l2, acts = l1 ++ l2 →
      (monRun cooldown monInit l1).2.count name ≤ countCompletes l1 name + 1 ∧
      (name ∈ (monRun cooldown monInit l1).1.inFlight ↔
        (monRun cooldown monInit l1).2.count name = countCompletes l1 name + 1)) ∧
    (∀ s kind isFile t, name ∈ s.inFlight →
      (monStep cooldown s (.fsEvent kind isFile name t)).2 = none) := by
  constructor
  · intro l1 l2 hsplit
    have hv1 : validFrom cooldown monInit l1 = true := by
      apply validFrom_of_append cooldown l1 l2
      rw [← hsplit]
      exact hvalid
    have hnd : monInit.inFlight.Nodup := List.nodup_nil
    obtain ⟨_, hbal⟩ := monRun_balance cooldown l1 monInit hnd hv1
    have hb := hbal name
    have hocc0 : occIn monInit name = 0 := rfl
    rw [hocc0] at hb
    have hocc01 : occIn (monRun cooldown monInit l1).1 name = 0 ∨
        occIn (monRun cooldown monInit l1).1 name = 1 := by
      simp only [occIn]
      by_cases hm : name ∈ (monRun cooldown monInit l1).1.inFlight <;> simp [hm]
    constructor
    · omega
    · constructor
      · intro hm
        have : occIn (monRun cooldown monInit l1).1 name = 1 := by simp [occIn, hm]
        omega
      · intro hcnt
        have : occIn (monRun cooldown monInit l1).1 name = 1 := by omega
        simp only [occIn] at this
        by_cases hm : name ∈ (monRun cooldown monInit l1).1.inFlight
        · exact hm
        · simp [hm] at this
  · intro s kind isFile t hmem
    rcases monStep_fsEvent_inFlight cooldown s kind isFile name t with
      ⟨hd, _⟩ | ⟨_, _, habs⟩
    · exact hd
    · exact absurd hmem habs

theorem in_flight_guard_single_run_witness :
    (monRun 0 monInit [MonAction.fsEvent .create true "x-preview.jpg" 0,
        .fsEvent .create true "x-preview.jpg" 0, .fsEvent .create true "x-preview.jpg" 0,
        .fsEvent .create true "x-preview.jpg" 0,
        .fsEvent .create true "x-preview.jpg" 0]).2.count "x-preview.jpg" ≤
      countCompletes [MonAction.fsEvent .create true "x-preview.jpg" 0,
        .fsEvent .create true "x-preview.jpg" 0, .fsEvent .create true "x-preview.jpg" 0,
        .fsEvent .create true "x-preview.jpg" 0,
        .fsEvent .create true "x-preview.jpg" 0] "x-preview.jpg" + 1 :=
  ((in_flight_guard_single_run 0
    [MonAction.fsEvent .create true "x-preview.jpg" 0,
      .fsEvent .create true "x-preview.jpg" 0, .fsEvent .create true "x-preview.jpg" 0,
      .fsEvent .create true "x-preview.jpg" 0, .fsEvent .create true "x-preview.jpg" 0]
    "x-preview.jpg" (by decide)).1
    [MonAction.fsEvent .create true "x-preview.jpg" 0,
      .fsEvent .create true "x-preview.jpg" 0, .fsEvent .create true "x-preview.jpg" 0,
      .fsEvent .create true "x-preview.jpg" 0, .fsEvent .create true "x-preview.jpg" 0]
    [] (by simp)).1

theorem lookupAssoc_map_replace (k : String) (t : Nat) :
    ∀ m : List (String × Nat), containsKey m k = true →
      lookupAssoc (m.map (fun p => if p.1 == k then (k, t) else p)) k = some t := by
  intro m
  induction m with
  | nil => intro h; simp [containsKey] at h
  | cons p rest ih =>
    intro h
    by_cases hp : (p.1 == k) = true
    · have hfp : (if p.1 == k then (k, t) else p) = (k, t) := if_pos hp
      rw [List.map_cons, hfp, lookupAssoc]
      simp
    · have hrest : containsKey rest k = true := by
        simp only [containsKey, List.any_cons, Bool.or_eq_true] at h
        rcases h with h | h
        · exact absurd h hp
        · simpa [containsKey] using h
      have hfp : (if p.1 == k then (k, t) else p) = p := if_neg hp
      rw [List.map_cons, hfp, lookupAssoc, if_neg hp]
      exact ih hrest

theorem lookupAssoc_append_new (k : String) (t : Nat) :
    ∀ m : List (String × Nat), containsKey m k = false →
      lookupAssoc (m ++ [(k, t)]) k = some t := by
  intro m
  induction m with
  | nil => simp [lookupAssoc]
  | cons p rest ih =>
    intro h
    simp only [containsKey, List.any_cons, Bool.or_eq_false_iff] at h
    rw [List.cons_append, lookupAssoc, if_neg (by simp [h.1])]
    exact ih (by simpa [containsKey] using h.2)

theorem lookupAssoc_insertAssoc_self (m : List (String × Nat)) (k : String) (t : Nat) :
    lookupAssoc (insertAssoc m k t) k = some t := by
  simp only [insertAssoc]
  by_cases hc : containsKey m k = true
  · rw [if_pos hc]
    exact lookupAssoc_map_replace k t m hc
  · rw [if_neg hc]
    exact lookupAssoc_append_new k t m (by simpa using hc)

theorem contains_filter_ne (l : List String) (name : String) :
    name ∉ l.filter (fun x => x ≠ name) := by
  intro hmem
  have := List.mem_filter.mp hmem
  simp at this

/-- C8: a qualifying event for a fresh filename dispatches; a second
qualifying event within `eventCooldown` of it is suppressed with no
pipeline run and no state change (the two-event run returns the
post-first-event state and exactly one dispatch); a second event
spaced at least `eventCooldown` later dispatches again, subject to
the in-flight guard (here after the first run's completion). -/
theorem event_cooldown_debounce (cooldown : Nat) (s : MonState) (kind : EvKind)
    (name : String) (t1 t2 : Nat)
    (hq : qualifiesEvent kind true name = true)
    (h0 : lookupAssoc s.lastEvents name = none)
    (h1 : name ∉ s.inFlight) :
    (monStep cooldown s (.fsEvent kind true name t1)).2 = some name ∧
    (t2 - t1 < cooldown →
      monRun cooldown s [.fsEvent kind true name t1, .fsEvent kind true name t2] =
        ((monStep cooldown s (.fsEvent kind true name t1)).1, [name])) ∧
    (¬ t2 - t1 < cooldown →
      (monStep cooldown
        (monStep cooldown (monStep cooldown s (.fsEvent kind true name t1)).1
          (.complete name)).1
        (.fsEvent kind true name t2)).2 = some name) := by
  refine ⟨?_, ?_, ?_⟩
  · simp [monStep, hq, h0, admitEvent, h1]
  · intro hcd
    simp [monRun, monStep, hq, h0, admitEvent, h1, lookupAssoc_insertAssoc_self, hcd]
  · intro hcd
    simp [monStep, hq, h0, admitEvent, h1, lookupAssoc_insertAssoc_self, hcd,
      contains_filter_ne]

theorem event_cooldown_debounce_witness :
    (monStep 2 monInit (.fsEvent .create true "x-preview.jpg" 10)).2 =
      some "x-preview.jpg" ∧
    monRun 2 monInit [.fsEvent .create true "x-preview.jpg" 10,
        .fsEvent .create true "x-preview.jpg" 11] =
      ((monStep 2 monInit (.fsEvent .create true "x-preview.jpg" 10)).1,
       ["x-preview.jpg"]) :=
  ⟨(event_cooldown_debounce 2 monInit .create "x-preview.jpg" 10 11 (by decide) rfl
      (by simp [monInit])).1,
   (event_cooldown_debounce 2 monInit .create "x-preview.jpg" 10 11 (by decide) rfl
      (by simp [monInit])).2.1 (by decide)⟩

theorem stabilityGo_step_some (sizes : Nat → Option Nat)
    (interval timeout fuel k l c sz : Nat)
    (hcond : k * interval < timeout) (hs : sizes k = some sz) :
    stabilityGo sizes interval timeout (fuel + 1) k l c =
      if sz = l ∧ 0 < sz then
        (if 3 ≤ c + 1 then some k
         else stabilityGo sizes interval timeout fuel (k + 1) l (c + 1))
      else stabilityGo sizes interval timeout fuel (k + 1) sz 0 := by
  rw [stabilityGo, if_pos hcond, hs]

theorem stabilityGo_step_none (sizes : Nat → Option Nat)
    (interval timeout fuel k l c : Nat)
    (hcond : k * interval < timeout) (hs : sizes k = none) :
    stabilityGo sizes interval timeout (fuel + 1) k l c =
      stabilityGo sizes interval timeout fuel (k + 1) l c := by
  rw [stabilityGo, if_pos hcond, hs]

theorem stabilityGo_step_late (sizes : Nat → Option Nat)
    (interval timeout fuel k l c : Nat)
    (hcond : ¬ k * interval < timeout) :
    stabilityGo sizes interval timeout (fuel + 1) k l c = none := by
  rw [stabilityGo, if_neg hcond]

theorem stabilityGo_const_at (sizes : Nat → Option Nat) (interval timeout S : Nat)
    (hS : 0 < S) :
    ∀ (k c fuel : Nat), (∀ k', k ≤ k' → sizes k' = some S) →
      (k + 2) * interval < timeout → 3 ≤ fuel →
      ∃ k0, k0 ≤ k + 2 ∧ stabilityGo sizes interval timeout fuel k S c = some k0 := by
  intro k c fuel hsz hwin hfuel
  obtain ⟨f, rfl⟩ : ∃ f, fuel = f + 3 := ⟨fuel - 3, by omega⟩
  have hc0 : k * interval < timeout :=
    Nat.lt_of_le_of_lt (Nat.mul_le_mul_right interval (by omega)) hwin
  have hc1 : (k + 1) * interval < timeout :=
    Nat.lt_of_le_of_lt (Nat.mul_le_mul_right interval (by omega)) hwin
  have hc2 : (k + 2) * interval < timeout := hwin
  rw [stabilityGo_step_some sizes interval timeout (f + 2) k S c S hc0
      (hsz k (Nat.le_refl k)),
    if_pos (show S = S ∧ 0 < S from ⟨rfl, hS⟩)]
  by_cases h1 : 3 ≤ c + 1
  · exact ⟨k, by omega, by rw [if_pos h1]⟩
  · rw [if_neg h1,
      stabilityGo_step_some sizes interval timeout (f + 1) (k + 1) S (c + 1) S hc1
        (hsz (k + 1) (by omega)),
      if_pos (show S = S ∧ 0 < S from ⟨rfl, hS⟩)]
    by_cases h2 : 3 ≤ c + 1 + 1
    · exact ⟨k + 1, by omega, by rw [if_pos h2]⟩
    · rw [if_neg h2,
        stabilityGo_step_some sizes interval timeout f (k + 2) S (c + 1 + 1) S hc2
          (hsz (k + 2) (by omega)),
        if_pos (show S = S ∧ 0 < S from ⟨rfl, hS⟩),
        if_pos (by omega : 3 ≤ c + 1 + 1 + 1)]
      exact ⟨k + 2, by omega, rfl⟩

theorem stabilityGo_const_from (sizes : Nat → Option Nat) (interval timeout S : Nat)
    (hS : 0 < S) :
    ∀ (j l c fuel : Nat), (∀ k', j ≤ k' → sizes k' = some S) →
      (j + 3) * interval < timeout → 4 ≤ fuel →
      ∃ k0, k0 ≤ j + 3 ∧ stabilityGo sizes interval timeout fuel j l c = some k0 := by
  intro j l c fuel hsz hwin hfuel
  obtain ⟨f, rfl⟩ : ∃ f, fuel = f + 4 := ⟨fuel - 4, by omega⟩
  have hc0 : j * interval < timeout :=
    Nat.lt_of_le_of_lt (Nat.mul_le_mul_right interval (by omega)) hwin
  have hwin1 : (j + 1 + 2) * interval < timeout := by
    have he : j + 1 + 2 = j + 3 := by omega
    rw [he]
    exact hwin
  rw [stabilityGo_step_some sizes interval timeout (f + 3) j l c S hc0
      (hsz j (Nat.le_refl j))]
  by_cases hl : S = l ∧ 0 < S
  · obtain ⟨hl1, _⟩ := hl
    rw [if_pos ⟨hl1, hS⟩]
    by_cases h1 : 3 ≤ c + 1
    · exact ⟨j, by omega, by rw [if_pos h1]⟩
    · rw [if_neg h1, ← hl1]
      obtain ⟨k0, hk0, hgo⟩ := stabilityGo_const_at sizes interval timeout S hS
        (j + 1) (c + 1) (f + 3) (fun k' hk' => hsz k' (by omega)) hwin1 (by omega)
      exact ⟨k0, by omega, hgo⟩
  · rw [if_neg hl]
    obtain ⟨k0, hk0, hgo⟩ := stabilityGo_const_at sizes interval timeout S hS
      (j + 1) 0 (f + 3) (fun k' hk' => hsz k' (by omega)) hwin1 (by omega)
    exact ⟨k0, by omega, hgo⟩

theorem stabilityGo_reach (sizes : Nat → Option Nat) (interval timeout S j : Nat)
    (hS : 0 < S) (hsz : ∀ k', j ≤ k' → sizes k' = some S)
    (hwin : (j + 3) * interval < timeout) :
    ∀ (d k l c fuel : Nat), k + d = j → d + 4 ≤ fuel →
      ∃ k0, k0 ≤ j + 3 ∧ stabilityGo sizes interval timeout fuel k l c = some k0 := by
  intro d
  induction d with
  | zero =>
    intro k l c fuel hk hfuel
    have hkj : k = j := by omega
    subst hkj
    exact stabilityGo_const_from sizes interval timeout S hS k l c fuel hsz hwin
      (by omega)
  | succ d ih =>
    intro k l c fuel hk hfuel
    obtain ⟨f, rfl⟩ : ∃ f, fuel = f + 1 := ⟨fuel - 1, by omega⟩
    have hc0 : k * interval < timeout :=
      Nat.lt_of_le_of_lt (Nat.mul_le_mul_right interval (by omega)) hwin
    cases hs : sizes k with
    | none =>
      rw [stabilityGo_step_none sizes interval timeout f k l c hc0 hs]
      exact ih (k + 1) l c f (by omega) (by omega)
    | some sz =>
      rw [stabilityGo_step_some sizes interval timeout f k l c sz hc0 hs]
      by_cases hcond : sz = l ∧ 0 < sz
      · rw [if_pos hcond]
        by_cases h1 : 3 ≤ c + 1
        · exact ⟨k, by omega, by rw [if_pos h1]⟩
        · rw [if_neg h1]
          exact ih (k + 1) l (c + 1) f (by omega) (by omega)
      · rw [if_neg hcond]
        exact ih (k + 1) sz 0 f (by omega) (by omega)

theorem stabilityWait_const (sizes : Nat → Option Nat) (timeout interval S j : Nat)
    (hS : 0 < S) (hint : 1 ≤ interval)
    (hsz : ∀ k, j ≤ k → sizes k = some S)
    (hwin : (j + 3) * interval < timeout) :
    ∃ k0, k0 ≤ j + 3 ∧ stabilityWait sizes timeout interval = some k0 := by
  have hj3 : j + 3 ≤ (j + 3) * interval := by
    calc j + 3 = (j + 3) * 1 := by omega
    _ ≤ (j + 3) * interval := Nat.mul_le_mul_left _ hint
  have hjt : j + 3 < timeout := Nat.lt_of_le_of_lt hj3 hwin
  exact stabilityGo_reach sizes interval timeout S j hS hsz hwin j 0 0 0
    (timeout + 1) (by omega) (by omega)

theorem stabilityGo_changing (sizes : Nat → Option Nat) (interval timeout : Nat)
    (g : Nat → Nat) (hg : ∀ k, sizes k = some (g k))
    (hch : ∀ k, g (k + 1) ≠ g k) :
    ∀ (fuel k l c : Nat), (k = 0 → l = 0) → (∀ k', k = k' + 1 → l = g k') →
      stabilityGo sizes interval timeout fuel k l c = none := by
  intro fuel
  induction fuel with
  | zero => intro k l c _ _; rfl
  | succ fuel ih =>
    intro k l c h0 h1
    by_cases hc0 : k * interval < timeout
    · rw [stabilityGo_step_some sizes interval timeout fuel k l c (g k) hc0 (hg k)]
      have hcond : ¬ (g k = l ∧ 0 < g k) := by
        cases k with
        | zero =>
          rintro ⟨he, hpos⟩
          rw [h0 rfl] at he
          omega
        | succ k' =>
          rintro ⟨he, _⟩
          rw [h1 k' rfl] at he
          exact hch k' he
      rw [if_neg hcond]
      exact ih (k + 1) (g k) 0 (by omega) (fun k'' hk => by
        have hkk : k'' = k := by omega
        rw [hkk])
    · exact stabilityGo_step_late sizes interval timeout fuel k l c hc0

theorem stabilityWait_changing (sizes : Nat → Option Nat) (timeout interval : Nat)
    (g : Nat → Nat) (hg : ∀ k, sizes k = some (g k))
    (hch : ∀ k, g (k + 1) ≠ g k) :
    stabilityWait sizes timeout interval = none :=
  stabilityGo_changing sizes interval timeout g hg hch (timeout + 1) 0 0 0
    (fun _ => rfl) (fun k' hk => by omega)

/-- C9: the stability wait polls the size every `fileCheckInterval`;
once the size is constant and non-zero from some poll `j` on (three
consecutive unchanged polls after the baseline), the wait ends early
by poll `j + 3`, before `fileWriteTimeout` elapses, and the file is
dispatched to analysis (a request is issued); a size that changes on
every poll yields `FileWriteTimeout` with the analysis and
persistence stages never invoked (no requests, no writes). -/
theorem stability_wait_policy (filename : String) (sizes : Nat → Option Nat)
    (hasDesc : String → Bool) (cfg : FileProcessingConfig) (file : FileInput)
    (env : Nat → WireResult) (times : Nat → Nat) (assetId : String) (len : Nat)
    (h : String) (rest : List String)
    (hok : extract_uuid_from_preview_filename filename = .ok assetId)
    (hdesc : hasDesc assetId = false)
    (hhosts : cfg.ollama_hosts = h :: rest)
    (hlen : file.metadataLen = .ok len) (hne : len ≠ 0)
    (hread : file.readData = .ok ())
    (hint : 1 ≤ cfg.file_check_interval) :
    (∀ S j, 0 < S → (∀ k, j ≤ k → sizes k = some S) →
      (j + 3) * cfg.file_check_interval < cfg.file_write_timeout →
      (∃ k0, k0 ≤ j + 3 ∧
        stabilityWait sizes cfg.file_write_timeout cfg.file_check_interval = some k0) ∧
      (process_new_file filename sizes hasDesc cfg file env times).2.1.head? =
        some (ollamaRequest h)) ∧
    (∀ g : Nat → Nat, (∀ k, sizes k = some (g k)) → (∀ k, g (k + 1) ≠ g k) →
      process_new_file filename sizes hasDesc cfg file env times =
        (.error (.fileWriteTimeout cfg.file_write_timeout filename), [], [])) := by
  constructor
  · intro S j hS hsz hwin
    obtain ⟨k0, hk0, hsw⟩ := stabilityWait_const sizes cfg.file_write_timeout
      cfg.file_check_interval S j hS hint hsz hwin
    refine ⟨⟨k0, hk0, hsw⟩, ?_⟩
    simp only [process_new_file, hsw, hok, hdesc, Bool.and_false]
    rw [if_neg (by simp), hhosts]
    have hfst := analyze_first_request_ollama cfg.unavailable_duration filename file
      env times h rest assetId len hok hlen hne hread
    split
    · rename_i d aid mgr2 reqs2 heq
      rw [heq] at hfst
      simpa using hfst
    · rename_i e2 mgr2 reqs2 heq
      rw [heq] at hfst
      simpa using hfst
  · intro g hg hch
    have hsw := stabilityWait_changing sizes cfg.file_write_timeout
      cfg.file_check_interval g hg hch
    simp only [process_new_file, hsw]

theorem stability_wait_policy_witness :
    (∃ k0, k0 ≤ 0 + 3 ∧ stabilityWait (fun _ => some 5) 30 1 = some k0) ∧
    (process_new_file "aaaaaaaa-aaaa-4aaa-8aaa-aaaaaaaaaaaa-preview.jpg"
        (fun _ => some 5) (fun _ => false) ⟨30, 1, false, ["http://h"], 60, 300⟩
        ⟨.ok 5, .ok ()⟩ (fun _ => .timeout) (fun _ => 0)).2.1.head? =
      some (ollamaRequest "http://h") :=
  (stability_wait_policy "aaaaaaaa-aaaa-4aaa-8aaa-aaaaaaaaaaaa-preview.jpg"
    (fun _ => some 5) (fun _ => false) ⟨30, 1, false, ["http://h"], 60, 300⟩
    ⟨.ok 5, .ok ()⟩ (fun _ => .timeout) (fun _ => 0)
    "aaaaaaaa-aaaa-4aaa-8aaa-aaaaaaaaaaaa" 5 "http://h" [] rfl rfl rfl rfl
    (by decide) rfl (by decide)).1 5 0 (by decide) (fun k _ => rfl) (by decide)
